import Mathlib

/-!
Verification development for a constraint-satisfaction solver consisting of a
CSP state class (variables, domains, constraints, assignments) with AC-3
constraint propagation and heuristic helpers, and a recursive backtracking
search driver.

Embedding conventions, chosen to mirror the Python source:
* A Python `set` of values is a `Finset`; the per-variable domain dictionary
  (whose key set equals `variables`) is a total function `V → Finset T`
  (it is only ever read at declared variables).
* The constraints dictionary is an insertion-ordered association list with
  (by dict construction) pairwise distinct keys; lookup returns the first
  matching entry.  The assignments dictionary is likewise an association
  list; entries are only ever appended (a fresh key is asserted).
* Python `assert` failures and other exceptions are modelled as a
  distinguished failure result (`none`, or `AC3Result.assertFail`).
* The `while to_check:` worklist loop of `ac_3` is given explicit fuel;
  `AC3Result.outOfFuel` marks an artificial fuel exhaustion (termination for
  sufficient fuel is proved separately).
* Set iteration order in Python is unspecified; where an order is observable
  (`candidates.pop()`, the key order of the LCV count dictionary) the
  embedding fixes the ascending order of a `LinearOrder`, a deterministic
  refinement of the unspecified choice.
* Trace printing (`inprint`, `str_of_domains`, `str_of_assignments`) is
  observational only and is omitted.
-/

variable {V T : Type} [LinearOrder V] [LinearOrder T]

/-- Dictionary lookup in an association list of assignments: first entry with
the given key, mirroring Python `dict` access. -/
def lookupA : List (V × T) → V → Option T
  | [], _ => none
  | p :: l, v => if p.1 = v then some p.2 else lookupA l v

/-- Dictionary lookup in the constraints association list. -/
def lookupC : List ((V × V) × Finset (T × T)) → (V × V) → Option (Finset (T × T))
  | [], _ => none
  | c :: l, k => if c.1 = k then some c.2 else lookupC l k

/-- The CSP state: `variables`, `domains`, `constraints`, `assignments`,
translated from the `CSP` dataclass. -/
structure CSP (V T : Type) where
  vars : Finset V
  domains : V → Finset T
  constraints : List ((V × V) × Finset (T × T))
  assignments : List (V × T)

namespace CSP

/-- Translation of `CSP.get_constraints`: the allowed pairs for the directed
arc (i, j), consulting the key (i, j) first and otherwise the pair-swapped
entry at key (j, i); `none` when neither direction is declared. -/
def get_constraints (s : CSP V T) (i j : V) : Option (Finset (T × T)) :=
  match lookupC s.constraints (i, j) with
  | some cs => some cs
  | none =>
    match lookupC s.constraints (j, i) with
    | some cs => some (cs.image fun p => (p.2, p.1))
    | none => none

/-- Set insertion used while accumulating the neighbour set (`set.add`). -/
def addNb (x : V) (l : List V) : List V :=
  if x ∈ l then l else x :: l

/-- One constraint entry's contribution to the neighbour set of `v`: the two
membership tests of the loop body of `get_neighbours`. -/
def nbStep (v : V) (c : (V × V) × Finset (T × T)) (acc : List V) : List V :=
  let acc1 := if v = c.1.1 then addNb c.1.2 acc else acc
  if v = c.1.2 then addNb c.1.1 acc1 else acc1

/-- Translation of `CSP.get_neighbours`: all variables appearing opposite `v`
in a constraint key.  The Python result is a set; here it is a duplicate-free
list in the (unspecified in Python) order produced by the fold. -/
def get_neighbours (s : CSP V T) (v : V) : List V :=
  s.constraints.foldl (fun acc c => nbStep v c acc) []

/-- Translation of `CSP.get_degrees`: for each variable, the number of
constraint entries whose other endpoint is unassigned (a self-loop key with
its variable unassigned counts twice, exactly as the two `if` statements of
the source do).  The Python dictionary over `variables` is represented as a
total function that is zero away from the touched keys. -/
def get_degrees (s : CSP V T) : V → Nat :=
  s.constraints.foldl
    (fun d c =>
      let d1 := if lookupA s.assignments c.1.1 = none
        then Function.update d c.1.2 (d c.1.2 + 1) else d
      if lookupA s.assignments c.1.2 = none
        then Function.update d1 c.1.1 (d1 c.1.1 + 1) else d1)
    (fun _ => 0)

/-- The arbitrary-element choice `candidates.pop()` on a Python set, fixed
deterministically as the least element. -/
def popFinset (c : Finset V) : Option V :=
  if h : c.Nonempty then some (c.min' h) else none

/-- Translation of `CSP.get_next_variable`: unassigned variables, restricted
to those of minimum remaining domain size (`get_remaining_value_counts` is
`fun v => (s.domains v).card` inlined), then — unless a single candidate
remains — restricted to those of maximum degree, and an arbitrary remaining
candidate is popped.  Python raises on `min` of an empty sequence; that is
the `none` result. -/
def get_next_variable (s : CSP V T) : Option V :=
  let candidates := s.vars.filter fun v => lookupA s.assignments v = none
  if h : candidates.Nonempty then
    let min_rvc := candidates.inf' h fun v => (s.domains v).card
    let c2 := candidates.filter fun v => (s.domains v).card = min_rvc
    if c2.card = 1 then popFinset c2
    else
      let degrees := s.get_degrees
      if h2 : c2.Nonempty then
        let max_deg := c2.sup' h2 degrees
        popFinset (c2.filter fun v => degrees v = max_deg)
      else none
  else none

/-- Translation of `CSP.get_option_count_per_assignment` as a counting
function: for a candidate value `t` of `variable`, the number of allowed
pairs, over all constraint entries having `variable` as an endpoint (`elif`:
a self-loop entry is counted on the left side only), whose `variable`-side
value is `t` and whose other-side value lies in the neighbour's current
domain.  The Python dictionary has key set `domains variable`; the function
is evaluated only at such keys. -/
def get_option_count_per_assignment (s : CSP V T) (v0 : V) (t : T) : Nat :=
  s.constraints.foldl
    (fun acc c =>
      if v0 = c.1.1 then
        acc + (c.2.filter fun p => p.1 = t ∧ p.2 ∈ s.domains c.1.2).card
      else if v0 = c.1.2 then
        acc + (c.2.filter fun p => p.2 = t ∧ p.1 ∈ s.domains c.1.1).card
      else acc)
    0

/-- Stable insertion of `t` into a list sorted descending by `key`, placed
before the first element whose key is not larger (Python `sorted` with
`reverse=True` is stable). -/
def insertDesc (key : T → Nat) (t : T) : List T → List T
  | [] => [t]
  | x :: xs => if key t < key x then x :: insertDesc key t xs else t :: x :: xs

/-- Stable descending sort by `key` (insertion sort). -/
def sortDesc (key : T → Nat) (l : List T) : List T :=
  l.foldr (insertDesc key) []

/-- Order-respecting insertion into an ascending list, used to enumerate a
Python set in the canonical (ascending) iteration order fixed by this
embedding. -/
def insertAsc (t : T) : List T → List T
  | [] => [t]
  | x :: xs => if t ≤ x then t :: x :: xs else x :: insertAsc t xs

instance instLeftCommutativeInsertAsc : LeftCommutative (@insertAsc T _) := by
  constructor
  intro a b l
  induction l with
  | nil =>
    rcases lt_trichotomy a b with h | rfl | h
    · simp [insertAsc, h.le, h.not_le]
    · rfl
    · simp [insertAsc, h.le, h.not_le]
  | cons x xs ih =>
    by_cases hb : b ≤ x <;> by_cases ha : a ≤ x
    · rcases lt_trichotomy a b with h | rfl | h
      · simp [insertAsc, ha, hb, h.le, h.not_le]
      · rfl
      · simp [insertAsc, ha, hb, h.le, h.not_le]
    · have hab : ¬ a ≤ b := fun hc => ha (hc.trans hb)
      simp [insertAsc, ha, hb, hab]
    · have hba : ¬ b ≤ a := fun hc => hb (hc.trans ha)
      simp [insertAsc, ha, hb, hba]
    · simp [insertAsc, ha, hb, ih]

/-- Enumeration of a Python set as an ascending list of its elements. -/
def setList (d : Finset T) : List T :=
  Multiset.foldr insertAsc [] d.val

/-- Translation of `CSP.get_value_order`: candidate values of `variable`
sorted by option count, descending.  The unspecified iteration order of the
`option_counts` dictionary keys is fixed as ascending. -/
def get_value_order (s : CSP V T) (v0 : V) : List T :=
  sortDesc (s.get_option_count_per_assignment v0) (setList (s.domains v0))

/-- Values of `domains i` kept by `remove_inconsistencies s i j` under the
directed constraint `cs`: those with at least one supporting partner in
`domains j`. -/
def keepSet (s : CSP V T) (i j : V) (cs : Finset (T × T)) : Finset T :=
  (s.domains i).filter fun ti => ∃ u ∈ s.domains j, (ti, u) ∈ cs

/-- Translation of `CSP.remove_inconsistencies`: replaces `domains i` by the
values supported in `domains j`; the flag records whether any value had an
empty support set (i.e. was discarded).  The `assert constraint_ij is not
None` of the source is the `none` result. -/
def remove_inconsistencies (s : CSP V T) (i j : V) : Option (Bool × CSP V T) :=
  match s.get_constraints i j with
  | none => none
  | some cs =>
    let keep := keepSet s i j cs
    some (decide (∃ t ∈ s.domains i, t ∉ keep),
      { s with domains := Function.update s.domains i keep })

/-- Outcome of the `ac_3` worklist loop. -/
inductive AC3Result (V T : Type) where
  | ok (consistent : Bool) (s : CSP V T)
  | assertFail
  | outOfFuel

/-- The initial worklist of `ac_3`: both directions of every declared
constraint, forward arcs first, in declaration order (FIFO deque). -/
def initArcs (s : CSP V T) : List (V × V) :=
  (s.constraints.map fun c => c.1) ++ (s.constraints.map fun c => (c.1.2, c.1.1))

/-- The `while to_check:` loop of `CSP.ac_3` with explicit fuel; pops the
front arc, revises it, fails on an emptied domain, and re-enqueues the arcs
(k, i) for every neighbour k of i other than j after a removal. -/
def ac_3_loop : Nat → CSP V T → List (V × V) → AC3Result V T
  | _, s, [] => .ok true s
  | 0, _, _ :: _ => .outOfFuel
  | fuel + 1, s, (i, j) :: rest =>
    match s.remove_inconsistencies i j with
    | none => .assertFail
    | some (removed, s1) =>
      if removed then
        if s1.domains i = ∅ then .ok false s1
        else
          ac_3_loop fuel s1
            (rest ++ ((s1.get_neighbours i).filter fun k => k ≠ j).map fun k => (k, i))
      else ac_3_loop fuel s1 rest

/-- Translation of `CSP.ac_3`: run the worklist loop on the seeded arcs. -/
def ac_3 (fuel : Nat) (s : CSP V T) : AC3Result V T :=
  ac_3_loop fuel s (initArcs s)

/-- Translation of `CSP.add_assignment`: the three `assert` preconditions
become a guard (failure is `none`); on success the assignment is recorded,
the domain collapses to the singleton, and `ac_3` reports consistency. -/
def add_assignment (fuel : Nat) (s : CSP V T) (v : V) (t : T) : Option (Bool × CSP V T) :=
  if v ∈ s.vars ∧ lookupA s.assignments v = none ∧ t ∈ s.domains v then
    let s1 : CSP V T :=
      { s with assignments := s.assignments ++ [(v, t)],
               domains := Function.update s.domains v {t} }
    match ac_3 fuel s1 with
    | .ok b s2 => some (b, s2)
    | _ => none
  else none

/-- Validity of an initial problem instance, the properties checked by
`CSP.sanity_check` plus the inherent key uniqueness of a Python dict:
no assignments yet, every constraint endpoint declared, every allowed pair
within the endpoint domains, and pairwise distinct constraint keys.  (The
`variables`/`domains`-key-set equality of the source check is inherent in
the total-function representation of the domain dictionary.) -/
def ValidInst (s : CSP V T) : Prop :=
  s.assignments = [] ∧
  (s.constraints.map fun c => c.1).Nodup ∧
  ∀ c ∈ s.constraints, c.1.1 ∈ s.vars ∧ c.1.2 ∈ s.vars ∧
    ∀ p ∈ c.2, p.1 ∈ s.domains c.1.1 ∧ p.2 ∈ s.domains c.1.2

end CSP

open CSP

/-- The branch loop of `backtrack`, over the ordered candidate values of the
selected variable.  `recur` is the recursive call on the child state (the
child is Python's mutated fresh copy, here the value returned by
`add_assignment`); result `none` models a crash (assertion failure or fuel
exhaustion), `some none` the no-solution signal, `some (some a)` a solution. -/
def tryValues (recur : CSP V T → Option (Option (List (V × T))))
    (addA : CSP V T → V → T → Option (Bool × CSP V T))
    (s : CSP V T) (v : V) : List T → Option (Option (List (V × T)))
  | [] => some none
  | t :: ts =>
    match addA s v t with
    | none => none
    | some (is_consistent, child) =>
      if is_consistent then
        match recur child with
        | none => none
        | some (some sol) => some (some sol)
        | some none => tryValues recur addA s v ts
      else tryValues recur addA s v ts

/-- Translation of `backtrack`: if all variables are assigned return the
assignment map; select the next variable from the forced order at the current
depth when available, else by MRV/degree; order values by LCV, moving a still
legal forced attempt to the front; then run the branch loop.  Recursion depth
is bounded by explicit fuel (`none` on exhaustion). -/
def backtrack (fuelA : Nat) (forced_order : Option (List V))
    (forced_attempts : Option (List (V × T))) :
    Nat → CSP V T → Option (Option (List (V × T)))
  | 0, _ => none
  | fuel + 1, s =>
    let depth := s.assignments.length
    if s.assignments.length = s.vars.card then some (some s.assignments)
    else
      match
        (match forced_order with
         | some fo =>
           if h : depth < fo.length then some (fo.get ⟨depth, h⟩)
           else s.get_next_variable
         | none => s.get_next_variable) with
      | none => none
      | some next_var =>
        let vo := s.get_value_order next_var
        let vo1 :=
          match forced_attempts with
          | some fa =>
            match lookupA fa next_var with
            | some attempt =>
              if attempt ∈ vo then attempt :: vo.erase attempt else vo
            | none => vo
          | none => vo
        tryValues (backtrack fuelA forced_order forced_attempts fuel)
          (add_assignment fuelA) s next_var vo1

/-- A complete satisfying assignment of an instance: every declared variable
is mapped to a value of its declared domain, and the endpoint values of every
declared constraint form an allowed pair. -/
def Solves (s : CSP V T) (a : List (V × T)) : Prop :=
  (∀ v ∈ s.vars, ∃ t, lookupA a v = some t ∧ t ∈ s.domains v) ∧
  ∀ c ∈ s.constraints, ∃ ti tj, lookupA a c.1.1 = some ti ∧
    lookupA a c.1.2 = some tj ∧ (ti, tj) ∈ c.2

/-- A sequence of `add_assignment` calls, each required to report a still
consistent state (the search driver only continues on such branches). -/
def runAssignments (fuel : Nat) : CSP V T → List (V × T) → Option (CSP V T)
  | s, [] => some s
  | s, (v, t) :: rest =>
    match add_assignment fuel s v t with
    | some (true, s1) => runAssignments fuel s1 rest
    | _ => none

/-- The constraint dictionary mentions each unordered variable pair in at
most one orientation and never as a self-pair (taking `c2` to be `c`, the
second conjunct already rules out self-pairs). -/
def SingleOrient (s : CSP V T) : Prop :=
  (∀ c ∈ s.constraints, c.1.1 ≠ c.1.2) ∧
  ∀ c ∈ s.constraints, ∀ c2 ∈ s.constraints, c.1 ≠ (c2.1.2, c2.1.1)

/-- Total size of all declared domains, the termination measure of `ac_3`. -/
def totalDom (s : CSP V T) : Nat :=
  Finset.sum s.vars fun v => (s.domains v).card

/-- The directed arc (a, b) is revised in state `s`: every value of
`domains a` has a supporting partner in `domains b` under the directed
constraint from a to b, when one is declared. -/
def Revised (s : CSP V T) (a b : V) : Prop :=
  ∀ cs, s.get_constraints a b = some cs →
    ∀ t ∈ s.domains a, ∃ u ∈ s.domains b, (t, u) ∈ cs

/-!
Reference model of the Python object heap, for the copy-on-branch isolation
property.  A `Store` maps cell indices to the contents of the two mutable
dictionaries of each CSP object (`domains`, `assignments`) and of the shared
immutable `variables` set and `constraints` dictionary; every Python-level
mutation of a CSP object rebinds a key of one of its own two mutable cells,
so `add_assignment` (including the `ac_3` it runs) is modelled as writing
the resulting dictionary values through the object's cells. -/

namespace RefModel

/-- The heap: cell contents per index, and the next fresh index. -/
structure Store (V T : Type) where
  doms : Nat → V → Finset T
  asgs : Nat → List (V × T)
  cons : Nat → List ((V × V) × Finset (T × T))
  varsM : Nat → Finset V
  next : Nat

/-- A CSP object: references into the heap for its four attributes. -/
structure CSPRef where
  varRef : Nat
  domRef : Nat
  conRef : Nat
  asgRef : Nat

/-- The CSP value currently denoted by an object. -/
def readCSP (st : Store V T) (r : CSPRef) : CSP V T :=
  ⟨st.varsM r.varRef, st.doms r.domRef, st.cons r.conRef, st.asgs r.asgRef⟩

/-- All references of the object are allocated cells. -/
def WFRef (st : Store V T) (r : CSPRef) : Prop :=
  r.varRef < st.next ∧ r.domRef < st.next ∧ r.conRef < st.next ∧ r.asgRef < st.next

/-- Translation of `CSP.copy_of` at the heap level: the `variables` and
`constraints` references are shared, while `domains` and `assignments` are
copied into freshly allocated cells. -/
def copy_of (st : Store V T) (r : CSPRef) : Store V T × CSPRef :=
  ({ st with doms := Function.update st.doms st.next (st.doms r.domRef),
             asgs := Function.update st.asgs (st.next + 1) (st.asgs r.asgRef),
             next := st.next + 2 },
   ⟨r.varRef, st.next, r.conRef, st.next + 1⟩)

/-- Overwrite the domains cell `i`. -/
def writeDoms (st : Store V T) (i : Nat) (d : V → Finset T) : Store V T :=
  { st with doms := Function.update st.doms i d }

/-- Overwrite the assignments cell `i`. -/
def writeAsgs (st : Store V T) (i : Nat) (a : List (V × T)) : Store V T :=
  { st with asgs := Function.update st.asgs i a }

/-- `CSP.add_assignment` on a heap object: compute the functional result on
the object's current value and write the new `domains` and `assignments`
dictionaries back through the object's own references (the only cells the
Python method mutates). -/
def add_assignment (fuelA : Nat) (st : Store V T) (r : CSPRef) (v : V) (t : T) :
    Option (Bool × Store V T) :=
  match CSP.add_assignment fuelA (readCSP st r) v t with
  | none => none
  | some (b, s1) => some (b, writeAsgs (writeDoms st r.domRef s1.domains) r.asgRef s1.assignments)

/-- The branch loop of `backtrack` on the heap: per candidate value, clone
the object, attempt the assignment on the clone, and recurse into the clone
when consistent. -/
def tryValues (fuelA : Nat)
    (recur : Store V T → CSPRef → Option (Option (List (V × T)) × Store V T))
    (st : Store V T) (r : CSPRef) (v : V) :
    List T → Option (Option (List (V × T)) × Store V T)
  | [] => some (none, st)
  | t :: ts =>
    match RefModel.copy_of st r with
    | (st1, child) =>
      match RefModel.add_assignment fuelA st1 child v t with
      | none => none
      | some (is_consistent, st2) =>
        if is_consistent then
          match recur st2 child with
          | none => none
          | some (some sol, st3) => some (some sol, st3)
          | some (none, st3) => RefModel.tryValues fuelA recur st3 r v ts
        else RefModel.tryValues fuelA recur st2 r v ts

/-- Translation of `backtrack` on the heap, mirroring the functional
`backtrack` but threading the store so that the mutation footprint is
visible. -/
def backtrack (fuelA : Nat) (fo : Option (List V)) (fa : Option (List (V × T))) :
    Nat → Store V T → CSPRef → Option (Option (List (V × T)) × Store V T)
  | 0, _, _ => none
  | fuel + 1, st, r =>
    let s := readCSP st r
    if s.assignments.length = s.vars.card then some (some s.assignments, st)
    else
      match
        (match fo with
         | some l =>
           if h : s.assignments.length < l.length then some (l.get ⟨s.assignments.length, h⟩)
           else s.get_next_variable
         | none => s.get_next_variable) with
      | none => none
      | some next_var =>
        let vo := s.get_value_order next_var
        let vo1 :=
          match fa with
          | some l =>
            match lookupA l next_var with
            | some attempt =>
              if attempt ∈ vo then attempt :: vo.erase attempt else vo
            | none => vo
          | none => vo
        RefModel.tryValues fuelA (RefModel.backtrack fuelA fo fa fuel) st r next_var vo1

/-- The store-evolution footprint of the branch loop: allocation only grows,
every already-allocated `domains`/`assignments` cell keeps its contents, and
the immutable `variables`/`constraints` cells are untouched everywhere. -/
def FrameLe (st st2 : Store V T) : Prop :=
  st.next ≤ st2.next ∧
  (∀ i, i < st.next → st2.doms i = st.doms i) ∧
  (∀ i, i < st.next → st2.asgs i = st.asgs i) ∧
  (∀ i, st2.cons i = st.cons i) ∧
  (∀ i, st2.varsM i = st.varsM i)

end RefModel

/-!
Concrete instances used by witnesses and counterexamples, together with
result extractors that name computed values without restating them.
-/

/-- Extract the final state of an `ac_3` run (default for non `ok` results). -/
def ac3State (r : AC3Result V T) (dflt : CSP V T) : CSP V T :=
  match r with
  | .ok _ s => s
  | _ => dflt

/-- Extract the consistency flag of an `ac_3` run. -/
def ac3Flag (r : AC3Result V T) : Bool :=
  match r with
  | .ok b _ => b
  | _ => false

/-- Extract a solution from a `backtrack` result. -/
def solOf (r : Option (Option (List (V × T)))) : List (V × T) :=
  match r with
  | some (some a) => a
  | _ => []

/-- The two-colour inequality constraint. -/
def diffC : Finset (Nat × Nat) := {(0,1),(1,0)}

/-- Four nodes, two colours, five inequality edges (the four-cycle plus a
chord, so the graph contains odd cycles): unsatisfiable. -/
def oddCycleInst : CSP Nat Nat :=
  ⟨{0,1,2,3}, fun _ => {0,1},
   [((0,1),diffC), ((1,2),diffC), ((2,3),diffC), ((3,0),diffC), ((0,2),diffC)], []⟩

/-- The three-colour inequality constraint. -/
def diff3 : Finset (Nat × Nat) := {(0,1),(0,2),(1,0),(1,2),(2,0),(2,1)}

/-- A satisfiable triangle with three colours. -/
def triInst : CSP Nat Nat :=
  ⟨{0,1,2}, fun _ => {0,1,2}, [((0,1),diff3), ((1,2),diff3), ((0,2),diff3)], []⟩

/-- A valid instance with a self-loop constraint key whose allowed pairs form
a chain; `ac_3` stops short of the fixed point on it. -/
def selfLoopInst : CSP Nat Nat :=
  ⟨{0}, fun _ => {0,1,2,3}, [((0,0), {(0,1),(1,2),(2,3)})], []⟩

/-- A valid instance declaring both orientations of the pair (0, 1) as
independent keys; the arc skipped at re-enqueue time is then unsound and
`ac_3` stops short of the fixed point. -/
def twoWayInst : CSP Nat Nat :=
  ⟨{0,1,2}, fun v => if v = 2 then {0} else {0,1},
   [((0,1), {(0,0),(1,1)}), ((1,0), {(0,1),(1,0)}), ((2,1), {(0,0)})], []⟩

/-- A valid instance with a self-loop constraint, for the directed-arc
revision claim at i = j. -/
def selfArcInst : CSP Nat Nat :=
  ⟨{0}, fun _ => {0,1}, [((0,0), {(0,0)})], []⟩

/-- A two-variable instance on which revision of the arc (0, 1) discards a
value. -/
def pairInst : CSP Nat Nat :=
  ⟨{0,1}, fun v => if v = 0 then {0,1} else {0}, [((0,1), {(0,0)})], []⟩

/-- Result of the first `ac_3` run on the self-loop instance. -/
def selfLoopRun1 : AC3Result Nat Nat := ac_3 20 selfLoopInst

/-- State after the first `ac_3` run on the self-loop instance. -/
def selfLoopS1 : CSP Nat Nat := ac3State selfLoopRun1 selfLoopInst

/-- Result of the second `ac_3` run on the self-loop instance. -/
def selfLoopRun2 : AC3Result Nat Nat := ac_3 20 selfLoopS1

/-- State after the second `ac_3` run on the self-loop instance. -/
def selfLoopS2 : CSP Nat Nat := ac3State selfLoopRun2 selfLoopS1

/-- Result of the first `ac_3` run on the two-orientation instance. -/
def twoWayRun1 : AC3Result Nat Nat := ac_3 20 twoWayInst

/-- State after the first `ac_3` run on the two-orientation instance. -/
def twoWayS1 : CSP Nat Nat := ac3State twoWayRun1 twoWayInst

/-- Result of the second `ac_3` run on the two-orientation instance. -/
def twoWayRun2 : AC3Result Nat Nat := ac_3 20 twoWayS1

/-- State after the second `ac_3` run on the two-orientation instance. -/
def twoWayS2 : CSP Nat Nat := ac3State twoWayRun2 twoWayS1

/-- The solution `backtrack` finds on the triangle instance. -/
def triSol : List (Nat × Nat) := solOf (backtrack 100 none none 4 triInst)

/-- Result of an `ac_3` run on the triangle instance. -/
def triRun : AC3Result Nat Nat := ac_3 20 triInst

/-- Final state of an `ac_3` run on the triangle instance. -/
def triAc3S : CSP Nat Nat := ac3State triRun triInst

/-- Result of revising the arc (0, 1) of `pairInst`. -/
def pairRI : Option (Bool × CSP Nat Nat) := pairInst.remove_inconsistencies 0 1

/-- State after revising the arc (0, 1) of `pairInst`. -/
def pairRIS : CSP Nat Nat :=
  match pairRI with
  | some (_, s) => s
  | none => pairInst

/-- Flag returned by revising the arc (0, 1) of `pairInst`. -/
def pairRIB : Bool :=
  match pairRI with
  | some (b, _) => b
  | none => false

/-- Result of revising the self-loop arc (0, 0) of `selfArcInst`. -/
def selfArcRI : Option (Bool × CSP Nat Nat) := selfArcInst.remove_inconsistencies 0 0

/-- State after revising the self-loop arc (0, 0) of `selfArcInst`. -/
def selfArcRIS : CSP Nat Nat :=
  match selfArcRI with
  | some (_, s) => s
  | none => selfArcInst

/-- Result of an `ac_3` run on `pairInst`. -/
def pairRun : AC3Result Nat Nat := ac_3 20 pairInst

/-- Final state of an `ac_3` run on `pairInst`. -/
def pairAc3S : CSP Nat Nat := ac3State pairRun pairInst

/-- Result of a second `ac_3` run on `pairInst`. -/
def pairRun2 : AC3Result Nat Nat := ac_3 20 pairAc3S

/-- State reached from the triangle instance by assigning 0 ↦ 0 then 1 ↦ 1. -/
def triRunAsg : Option (CSP Nat Nat) := runAssignments 20 triInst [(0, 0), (1, 1)]

/-- Extracted state of `triRunAsg`. -/
def triRunAsgS : CSP Nat Nat := (triRunAsg).getD triInst

/-- A heap holding one CSP object (references 0 to 3) describing a one
variable instance. -/
def stW : RefModel.Store Nat Nat :=
  ⟨(fun i => if i = 1 then (fun _ => ({5} : Finset Nat)) else fun _ => ∅),
   (fun _ => []), (fun _ => []),
   (fun i => if i = 0 then ({7} : Finset Nat) else ∅), 4⟩

/-- The object stored in `stW`. -/
def rW : RefModel.CSPRef := ⟨0, 1, 2, 3⟩

/-- A heap-level `backtrack` run on the object of `stW`. -/
def rbRun : Option (Option (List (Nat × Nat)) × RefModel.Store Nat Nat) :=
  RefModel.backtrack 5 none none 2 stW rW

/-- Extracted final store of `rbRun`. -/
def rbStore : RefModel.Store Nat Nat :=
  match rbRun with
  | some (_, st) => st
  | none => stW

/-- Extracted result of `rbRun`. -/
def rbRes : Option (List (Nat × Nat)) :=
  match rbRun with
  | some (res, _) => res
  | none => none


/-!
Basic lemmas about the embedded operations.
-/

theorem CSP.eq_of_fields {s1 s2 : CSP V T} (h1 : s1.vars = s2.vars)
    (h2 : s1.domains = s2.domains) (h3 : s1.constraints = s2.constraints)
    (h4 : s1.assignments = s2.assignments) : s1 = s2 := by
  cases s1; cases s2; cases h1; cases h2; cases h3; cases h4; rfl

theorem keepSet_subset (s : CSP V T) (i j : V) (cs : Finset (T × T)) :
    keepSet s i j cs ⊆ s.domains i :=
  Finset.filter_subset _ _

theorem mem_keepSet {s : CSP V T} {i j : V} {cs : Finset (T × T)} {t : T} :
    t ∈ keepSet s i j cs ↔ t ∈ s.domains i ∧ ∃ u ∈ s.domains j, (t, u) ∈ cs :=
  Finset.mem_filter

theorem remove_inconsistencies_none {s : CSP V T} {i j : V}
    (h : s.get_constraints i j = none) :
    s.remove_inconsistencies i j = none := by
  unfold CSP.remove_inconsistencies
  rw [h]

theorem remove_inconsistencies_eq {s : CSP V T} {i j : V} {cs : Finset (T × T)}
    (h : s.get_constraints i j = some cs) :
    s.remove_inconsistencies i j =
      some (decide (∃ t ∈ s.domains i, t ∉ keepSet s i j cs),
        { s with domains := Function.update s.domains i (keepSet s i j cs) }) := by
  unfold CSP.remove_inconsistencies
  rw [h]

theorem remove_inconsistencies_some {s : CSP V T} {i j : V} {r : Bool} {s1 : CSP V T}
    (h : s.remove_inconsistencies i j = some (r, s1)) :
    ∃ cs, s.get_constraints i j = some cs ∧
      s1.domains = Function.update s.domains i (keepSet s i j cs) ∧
      s1.constraints = s.constraints ∧ s1.assignments = s.assignments ∧
      s1.vars = s.vars ∧
      (r = true ↔ ∃ t ∈ s.domains i, t ∉ keepSet s i j cs) := by
  cases hgc : s.get_constraints i j with
  | none => rw [remove_inconsistencies_none hgc] at h; cases h
  | some cs =>
    rw [remove_inconsistencies_eq hgc] at h
    simp only [Option.some.injEq, Prod.mk.injEq] at h
    obtain ⟨hr, hs⟩ := h
    subst hs
    refine ⟨cs, rfl, rfl, rfl, rfl, rfl, ?_⟩
    rw [← hr]
    simp

theorem remove_inconsistencies_false {s : CSP V T} {i j : V} {s1 : CSP V T}
    (h : s.remove_inconsistencies i j = some (false, s1)) : s1 = s := by
  obtain ⟨cs, hgc, hdom, hcon, hasg, hvar, hiff⟩ := remove_inconsistencies_some h
  have hk : keepSet s i j cs = s.domains i := by
    apply Finset.Subset.antisymm (keepSet_subset ..)
    intro t ht
    by_contra hnk
    exact absurd (hiff.mpr ⟨t, ht, hnk⟩) (by simp)
  apply CSP.eq_of_fields hvar _ hcon hasg
  rw [hdom, hk, Function.update_eq_self]

theorem remove_inconsistencies_domains_subset {s : CSP V T} {i j : V} {r : Bool}
    {s1 : CSP V T} (h : s.remove_inconsistencies i j = some (r, s1)) :
    ∀ v, s1.domains v ⊆ s.domains v := by
  obtain ⟨cs, hgc, hdom, _⟩ := remove_inconsistencies_some h
  intro v
  rw [hdom]
  by_cases hv : v = i
  · subst hv; rw [Function.update_same]; exact keepSet_subset ..
  · rw [Function.update_noteq hv]

theorem get_constraints_congr {s1 s : CSP V T} (h : s1.constraints = s.constraints)
    (i j : V) : s1.get_constraints i j = s.get_constraints i j := by
  unfold CSP.get_constraints
  rw [h]

theorem get_neighbours_congr {s1 s : CSP V T} (h : s1.constraints = s.constraints)
    (v : V) : s1.get_neighbours v = s.get_neighbours v := by
  unfold CSP.get_neighbours
  rw [h]

theorem ac_3_loop_nil_eq (fuel : Nat) (s : CSP V T) :
    ac_3_loop fuel s [] = .ok true s := by
  cases fuel <;> rfl

theorem ac_3_loop_zero_cons (s : CSP V T) (p : V × V) (rest : List (V × V)) :
    ac_3_loop 0 s (p :: rest) = .outOfFuel := by
  obtain ⟨i, j⟩ := p
  rfl

theorem ac_3_loop_cons_eq (fuel : Nat) (s : CSP V T) (i j : V) (rest : List (V × V)) :
    ac_3_loop (fuel + 1) s ((i, j) :: rest) =
      match s.remove_inconsistencies i j with
      | none => .assertFail
      | some (removed, s1) =>
        if removed then
          if s1.domains i = ∅ then .ok false s1
          else ac_3_loop fuel s1
            (rest ++ ((s1.get_neighbours i).filter fun k => k ≠ j).map fun k => (k, i))
        else ac_3_loop fuel s1 rest := rfl

theorem ac_3_loop_ok_fields :
    ∀ (fuel : Nat) (s : CSP V T) (q : List (V × V)) {b : Bool} {s' : CSP V T},
    ac_3_loop fuel s q = .ok b s' →
    s'.constraints = s.constraints ∧ s'.assignments = s.assignments ∧ s'.vars = s.vars := by
  intro fuel
  induction fuel with
  | zero =>
    intro s q b s' h
    cases q with
    | nil =>
      rw [ac_3_loop_nil_eq] at h
      injection h with hb hs
      subst hs
      exact ⟨rfl, rfl, rfl⟩
    | cons p rest =>
      rw [ac_3_loop_zero_cons] at h
      cases h
  | succ fuel ih =>
    intro s q b s' h
    cases q with
    | nil =>
      rw [ac_3_loop_nil_eq] at h
      injection h with hb hs
      subst hs
      exact ⟨rfl, rfl, rfl⟩
    | cons p rest =>
      obtain ⟨i, j⟩ := p
      rw [ac_3_loop_cons_eq] at h
      split at h
      · cases h
      · rename_i removed s1 hri
        obtain ⟨cs, hgc, hdom, hcon, hasg, hvar, hiff⟩ := remove_inconsistencies_some hri
        split at h
        · split at h
          · injection h with hb hs
            subst hs
            exact ⟨hcon, hasg, hvar⟩
          · obtain ⟨h1, h2, h3⟩ := ih s1 _ h
            exact ⟨h1.trans hcon, h2.trans hasg, h3.trans hvar⟩
        · obtain ⟨h1, h2, h3⟩ := ih s1 _ h
          exact ⟨h1.trans hcon, h2.trans hasg, h3.trans hvar⟩

theorem ac_3_loop_mono :
    ∀ (fuel : Nat) (s : CSP V T) (q : List (V × V)) {b : Bool} {s' : CSP V T},
    ac_3_loop fuel s q = .ok b s' → ∀ v, s'.domains v ⊆ s.domains v := by
  intro fuel
  induction fuel with
  | zero =>
    intro s q b s' h v
    cases q with
    | nil =>
      rw [ac_3_loop_nil_eq] at h
      injection h with hb hs
      subst hs
      exact Finset.Subset.refl _
    | cons p rest =>
      rw [ac_3_loop_zero_cons] at h
      cases h
  | succ fuel ih =>
    intro s q b s' h v
    cases q with
    | nil =>
      rw [ac_3_loop_nil_eq] at h
      injection h with hb hs
      subst hs
      exact Finset.Subset.refl _
    | cons p rest =>
      obtain ⟨i, j⟩ := p
      rw [ac_3_loop_cons_eq] at h
      split at h
      · cases h
      · rename_i removed s1 hri
        split at h
        · split at h
          · injection h with hb hs
            subst hs
            exact remove_inconsistencies_domains_subset hri v
          · exact (ih s1 _ h v).trans (remove_inconsistencies_domains_subset hri v)
        · exact (ih s1 _ h v).trans (remove_inconsistencies_domains_subset hri v)

theorem ac_3_loop_true_nonempty :
    ∀ (fuel : Nat) (s : CSP V T) (q : List (V × V)) {s' : CSP V T},
    ac_3_loop fuel s q = .ok true s' → ∀ v, s.domains v ≠ ∅ → s'.domains v ≠ ∅ := by
  intro fuel
  induction fuel with
  | zero =>
    intro s q s' h v hv
    cases q with
    | nil =>
      rw [ac_3_loop_nil_eq] at h
      injection h with hb hs
      subst hs
      exact hv
    | cons p rest =>
      rw [ac_3_loop_zero_cons] at h
      cases h
  | succ fuel ih =>
    intro s q s' h v hv
    cases q with
    | nil =>
      rw [ac_3_loop_nil_eq] at h
      injection h with hb hs
      subst hs
      exact hv
    | cons p rest =>
      obtain ⟨i, j⟩ := p
      rw [ac_3_loop_cons_eq] at h
      split at h
      · cases h
      · rename_i removed s1 hri
        obtain ⟨cs, hgc, hdom, hcon, hasg, hvar, hiff⟩ := remove_inconsistencies_some hri
        split at h
        · split at h
          · rename_i hd
            injection h with hb
            cases hb
          · rename_i hd
            refine ih s1 _ h v ?_
            by_cases hvi : v = i
            · subst hvi; exact hd
            · rw [hdom, Function.update_noteq hvi]; exact hv
        · rename_i hfalse
          have hrf : removed = false := by
            revert hfalse; cases removed <;> simp
          rw [hrf] at hri
          have hs1 := remove_inconsistencies_false hri
          subst hs1
          exact ih s1 _ h v hv

theorem ac_3_loop_false_empty :
    ∀ (fuel : Nat) (s : CSP V T) (q : List (V × V)) {s' : CSP V T},
    ac_3_loop fuel s q = .ok false s' → ∃ v, s.domains v ≠ ∅ ∧ s'.domains v = ∅ := by
  intro fuel
  induction fuel with
  | zero =>
    intro s q s' h
    cases q with
    | nil =>
      rw [ac_3_loop_nil_eq] at h
      injection h with hb
      cases hb
    | cons p rest =>
      rw [ac_3_loop_zero_cons] at h
      cases h
  | succ fuel ih =>
    intro s q s' h
    cases q with
    | nil =>
      rw [ac_3_loop_nil_eq] at h
      injection h with hb
      cases hb
    | cons p rest =>
      obtain ⟨i, j⟩ := p
      rw [ac_3_loop_cons_eq] at h
      split at h
      · cases h
      · rename_i removed s1 hri
        obtain ⟨cs, hgc, hdom, hcon, hasg, hvar, hiff⟩ := remove_inconsistencies_some hri
        split at h
        · rename_i hrt
          split at h
          · rename_i hd
            injection h with hb hs
            subst hs
            obtain ⟨t, ht, -⟩ := hiff.mp hrt
            exact ⟨i, Finset.ne_empty_of_mem ht, hd⟩
          · obtain ⟨v, hv1, hv2⟩ := ih s1 _ h
            obtain ⟨x, hx⟩ := Finset.nonempty_iff_ne_empty.mpr hv1
            exact ⟨v, Finset.ne_empty_of_mem
              (remove_inconsistencies_domains_subset hri v hx), hv2⟩
        · rename_i hfalse
          have hrf : removed = false := by
            revert hfalse; cases removed <;> simp
          rw [hrf] at hri
          have hs1 := remove_inconsistencies_false hri
          subst hs1
          exact ih s1 _ h

/-- C2: `ac_3` returns `true` exactly when no domain was emptied during its
run — on the worklist seeded with both directions of every declared
constraint, it returns `false` at the moment a revision empties a domain,
and `true` when the worklist empties; since domains shrink monotonically, a
domain was emptied during the run iff it went from nonempty at entry to
empty at exit. -/
theorem ac_3_true_iff_no_domain_emptied (fuel : Nat) (s : CSP V T) (b : Bool)
    (s' : CSP V T) (h : ac_3 fuel s = .ok b s') :
    b = true ↔ ∀ v, s.domains v ≠ ∅ → s'.domains v ≠ ∅ := by
  constructor
  · intro hb
    subst hb
    exact ac_3_loop_true_nonempty fuel s _ h
  · intro hall
    cases b with
    | true => rfl
    | false =>
      obtain ⟨v, hv1, hv2⟩ := ac_3_loop_false_empty fuel s _ h
      exact absurd hv2 (hall v hv1)

/-- Witness for C2 on the triangle instance. -/
theorem ac_3_true_iff_no_domain_emptied_witness :
    ac_3 20 triInst = .ok (ac3Flag triRun) triAc3S ∧
      (ac3Flag triRun = true ↔
        ∀ v, triInst.domains v ≠ ∅ → triAc3S.domains v ≠ ∅) :=
  ⟨rfl, ac_3_true_iff_no_domain_emptied 20 triInst (ac3Flag triRun) triAc3S rfl⟩

/-- C3 counterexample: at the self-loop arc (0, 0) of `selfArcInst` (a state
declaring the constraint key (0, 0)), `remove_inconsistencies` does not
leave `domains j` unchanged: with i = j = 0 it removes the unsupported value
1 from the very domain the claim asserts untouched. -/
theorem remove_inconsistencies_selfarc_changes_domain_j :
    (selfArcInst.get_constraints 0 0).isSome = true ∧
    selfArcInst.remove_inconsistencies 0 0 = some (true, selfArcRIS) ∧
    1 ∈ selfArcInst.domains 0 ∧ 1 ∉ selfArcRIS.domains 0 :=
  ⟨rfl, rfl, by decide, by decide⟩

/-- C3 (amended to arcs with distinct endpoints): for i ≠ j with a declared
constraint in at least one direction, revising (i, j) leaves `domains j`
unchanged, replaces `domains i` by exactly the values with a supporting
partner in `domains j` under the directed constraint from i to j, and
reports `true` iff a value was removed from `domains i`. -/
theorem remove_inconsistencies_spec (s : CSP V T) (i j : V) (cs : Finset (T × T))
    (hne : i ≠ j) (hgc : s.get_constraints i j = some cs) (r : Bool) (s1 : CSP V T)
    (h : s.remove_inconsistencies i j = some (r, s1)) :
    s1.domains j = s.domains j ∧
    s1.domains i = (s.domains i).filter (fun t => ∃ u ∈ s.domains j, (t, u) ∈ cs) ∧
    (r = true ↔ ∃ t ∈ s.domains i, t ∉ s1.domains i) := by
  obtain ⟨cs0, hgc0, hdom, hcon, hasg, hvar, hiff⟩ := remove_inconsistencies_some h
  rw [hgc0] at hgc
  injection hgc with hcs
  subst hcs
  have hdi : s1.domains i = keepSet s i j cs0 := by
    rw [hdom, Function.update_same]
  refine ⟨?_, ?_, ?_⟩
  · rw [hdom, Function.update_noteq (Ne.symm hne)]
  · rw [hdi]; rfl
  · rw [hdi]; exact hiff

/-- Witness for the amended C3 on `pairInst` at the arc (0, 1). -/
theorem remove_inconsistencies_spec_witness :
    pairInst.remove_inconsistencies 0 1 = some (pairRIB, pairRIS) ∧
    pairRIS.domains 1 = pairInst.domains 1 ∧
    pairRIS.domains 0 = (pairInst.domains 0).filter
      (fun t => ∃ u ∈ pairInst.domains 1, (t, u) ∈ ({(0,0)} : Finset (Nat × Nat))) ∧
    (pairRIB = true ↔ ∃ t ∈ pairInst.domains 0, t ∉ pairRIS.domains 0) := by
  have h := remove_inconsistencies_spec pairInst 0 1 {(0,0)} (by decide) (by decide)
    pairRIB pairRIS (by rfl)
  exact ⟨rfl, h.1, h.2.1, h.2.2⟩

theorem ac_3_loop_removed_no_support :
    ∀ (fuel : Nat) (c : CSP V T) (q : List (V × V)) {b : Bool} {s' : CSP V T},
    ac_3_loop fuel c q = .ok b s' →
    ∀ v t, t ∈ c.domains v → t ∉ s'.domains v →
      ∃ j cs, c.get_constraints v j = some cs ∧ ∀ u ∈ s'.domains j, (t, u) ∉ cs := by
  intro fuel
  induction fuel with
  | zero =>
    intro c q b s' h v t htin htout
    cases q with
    | nil =>
      rw [ac_3_loop_nil_eq] at h
      injection h with hb hs
      subst hs
      exact absurd htin htout
    | cons p rest =>
      rw [ac_3_loop_zero_cons] at h
      cases h
  | succ fuel ih =>
    intro c q b s' h v t htin htout
    cases q with
    | nil =>
      rw [ac_3_loop_nil_eq] at h
      injection h with hb hs
      subst hs
      exact absurd htin htout
    | cons p rest =>
      obtain ⟨i, jj⟩ := p
      rw [ac_3_loop_cons_eq] at h
      split at h
      · cases h
      · rename_i removed s1 hri
        obtain ⟨cs, hgc, hdom, hcon, hasg, hvar, hiff⟩ := remove_inconsistencies_some hri
        split at h
        · split at h
          · rename_i hd
            injection h with hb hs
            subst hs
            by_cases hvi : v = i
            · subst hvi
              have hkeep : t ∉ keepSet c v jj cs := by
                intro hk
                rw [hdom, Function.update_same] at htout
                exact htout hk
              refine ⟨jj, cs, hgc, fun u hu hmem => ?_⟩
              have hujj : u ∈ c.domains jj :=
                remove_inconsistencies_domains_subset hri jj hu
              exact hkeep (mem_keepSet.mpr ⟨htin, u, hujj, hmem⟩)
            · rw [hdom, Function.update_noteq hvi] at htout
              exact absurd htin htout
          · by_cases hts1 : t ∈ s1.domains v
            · obtain ⟨j2, cs2, hgc2, hns⟩ := ih s1 _ h v t hts1 htout
              rw [get_constraints_congr hcon] at hgc2
              exact ⟨j2, cs2, hgc2, hns⟩
            · by_cases hvi : v = i
              · subst hvi
                have hkeep : t ∉ keepSet c v jj cs := by
                  intro hk
                  rw [hdom, Function.update_same] at hts1
                  exact hts1 hk
                refine ⟨jj, cs, hgc, fun u hu hmem => ?_⟩
                have hujj : u ∈ c.domains jj :=
                  remove_inconsistencies_domains_subset hri jj
                    (ac_3_loop_mono fuel s1 _ h jj hu)
                exact hkeep (mem_keepSet.mpr ⟨htin, u, hujj, hmem⟩)
              · rw [hdom, Function.update_noteq hvi] at hts1
                exact absurd htin hts1
        · rename_i hfalse
          have hrf : removed = false := by
            revert hfalse; cases removed <;> simp
          rw [hrf] at hri
          have hs1 := remove_inconsistencies_false hri
          subst hs1
          exact ih s1 _ h v t htin htout

/-- C6: a run of `ac_3` never grows any domain, and every value it removed
lacks, at the reached fixed point, a support under some declared directed
constraint out of its variable with respect to that neighbour's final
domain — equivalently, it never removes a value that still has a support
pair with every constraint neighbour's final domain. -/
theorem ac_3_monotone_and_sound (fuel : Nat) (s : CSP V T) (b : Bool) (s' : CSP V T)
    (h : ac_3 fuel s = .ok b s') :
    (∀ v, s'.domains v ⊆ s.domains v) ∧
    (∀ v t, t ∈ s.domains v → t ∉ s'.domains v →
      ∃ j cs, s.get_constraints v j = some cs ∧ ∀ u ∈ s'.domains j, (t, u) ∉ cs) :=
  ⟨ac_3_loop_mono fuel s _ h, ac_3_loop_removed_no_support fuel s _ h⟩

/-- Witness for C6 on `pairInst`, where `ac_3` removes the value 1 from the
domain of variable 0. -/
theorem ac_3_monotone_and_sound_witness :
    ac_3 20 pairInst = .ok (ac3Flag pairRun) pairAc3S ∧
    (∀ v, pairAc3S.domains v ⊆ pairInst.domains v) ∧
    (1 ∈ pairInst.domains 0 ∧ 1 ∉ pairAc3S.domains 0) ∧
    (∀ v t, t ∈ pairInst.domains v → t ∉ pairAc3S.domains v →
      ∃ j cs, pairInst.get_constraints v j = some cs ∧
        ∀ u ∈ pairAc3S.domains j, (t, u) ∉ cs) := by
  have h := ac_3_monotone_and_sound 20 pairInst (ac3Flag pairRun) pairAc3S rfl
  exact ⟨rfl, h.1, ⟨by decide, by decide⟩, h.2⟩

theorem mem_addNb {x k : V} {l : List V} : k ∈ addNb x l ↔ k = x ∨ k ∈ l := by
  unfold CSP.addNb
  by_cases hx : x ∈ l
  · rw [if_pos hx]
    exact ⟨Or.inr, fun h => h.elim (fun he => he ▸ hx) id⟩
  · rw [if_neg hx]
    exact List.mem_cons

theorem mem_nbStep {v k : V} {c : (V × V) × Finset (T × T)} {acc : List V} :
    k ∈ nbStep v c acc ↔
      k ∈ acc ∨ (v = c.1.1 ∧ k = c.1.2) ∨ (v = c.1.2 ∧ k = c.1.1) := by
  have key : nbStep v c acc =
      if v = c.1.2 then addNb c.1.1 (if v = c.1.1 then addNb c.1.2 acc else acc)
      else if v = c.1.1 then addNb c.1.2 acc else acc := rfl
  rw [key]
  by_cases h2 : v = c.1.2
  · rw [if_pos h2]
    by_cases h1 : v = c.1.1
    · rw [if_pos h1, mem_addNb, mem_addNb]
      constructor
      · rintro (h | h | h)
        · exact Or.inr (Or.inr ⟨h2, h⟩)
        · exact Or.inr (Or.inl ⟨h1, h⟩)
        · exact Or.inl h
      · rintro (h | ⟨_, h⟩ | ⟨_, h⟩)
        · exact Or.inr (Or.inr h)
        · exact Or.inr (Or.inl h)
        · exact Or.inl h
    · rw [if_neg h1, mem_addNb]
      constructor
      · rintro (h | h)
        · exact Or.inr (Or.inr ⟨h2, h⟩)
        · exact Or.inl h
      · rintro (h | ⟨hv, h⟩ | ⟨_, h⟩)
        · exact Or.inr h
        · exact absurd hv h1
        · exact Or.inl h
  · rw [if_neg h2]
    by_cases h1 : v = c.1.1
    · rw [if_pos h1, mem_addNb]
      constructor
      · rintro (h | h)
        · exact Or.inr (Or.inl ⟨h1, h⟩)
        · exact Or.inl h
      · rintro (h | ⟨_, h⟩ | ⟨hv, h⟩)
        · exact Or.inr h
        · exact Or.inl h
        · exact absurd hv h2
    · rw [if_neg h1]
      constructor
      · exact Or.inl
      · rintro (h | ⟨hv, h⟩ | ⟨hv, h⟩)
        · exact h
        · exact absurd hv h1
        · exact absurd hv h2

theorem mem_nb_foldl (v k : V) :
    ∀ (l : List ((V × V) × Finset (T × T))) (acc : List V),
    k ∈ l.foldl (fun acc c => nbStep v c acc) acc ↔
      k ∈ acc ∨ ∃ c ∈ l, (v = c.1.1 ∧ k = c.1.2) ∨ (v = c.1.2 ∧ k = c.1.1) := by
  intro l
  induction l with
  | nil => intro acc; simp
  | cons c cl ih =>
    intro acc
    rw [List.foldl_cons, ih, mem_nbStep]
    simp only [List.mem_cons]
    constructor
    · rintro ((h | h) | ⟨c2, hc2, hd⟩)
      · exact Or.inl h
      · exact Or.inr ⟨c, Or.inl rfl, h⟩
      · exact Or.inr ⟨c2, Or.inr hc2, hd⟩
    · rintro (h | ⟨c2, (rfl | hc2), hd⟩)
      · exact Or.inl (Or.inl h)
      · exact Or.inl (Or.inr hd)
      · exact Or.inr ⟨c2, hc2, hd⟩

theorem mem_get_neighbours_iff {s : CSP V T} {v k : V} :
    k ∈ s.get_neighbours v ↔
      ∃ c ∈ s.constraints, (v = c.1.1 ∧ k = c.1.2) ∨ (v = c.1.2 ∧ k = c.1.1) := by
  unfold CSP.get_neighbours
  rw [mem_nb_foldl]
  simp

theorem lookupC_isSome_of_mem {l : List ((V × V) × Finset (T × T))} {k : V × V}
    {cs : Finset (T × T)} (h : (k, cs) ∈ l) : (lookupC l k).isSome = true := by
  induction l with
  | nil => cases h
  | cons c cl ih =>
    unfold lookupC
    by_cases hc : c.1 = k
    · rw [if_pos hc]; rfl
    · rw [if_neg hc]
      rcases List.mem_cons.mp h with he | hm
      · exact absurd (by rw [← he]) hc
      · exact ih hm

theorem get_constraints_isSome {s : CSP V T} {i j : V} :
    (s.get_constraints i j).isSome = true ↔
      (lookupC s.constraints (i, j)).isSome = true ∨
      (lookupC s.constraints (j, i)).isSome = true := by
  unfold CSP.get_constraints
  cases h1 : lookupC s.constraints (i, j) <;>
    cases h2 : lookupC s.constraints (j, i) <;> simp

theorem initArcs_isSome {s : CSP V T} {p : V × V} (h : p ∈ initArcs s) :
    (s.get_constraints p.1 p.2).isSome = true := by
  unfold initArcs at h
  rw [List.mem_append] at h
  rcases h with h | h <;> rw [List.mem_map] at h <;>
    obtain ⟨⟨⟨a, b⟩, cs0⟩, hc, hp⟩ := h <;> subst hp
  · exact get_constraints_isSome.mpr (Or.inl (lookupC_isSome_of_mem hc))
  · exact get_constraints_isSome.mpr (Or.inr (lookupC_isSome_of_mem hc))

theorem get_constraints_isSome_of_neighbour {s : CSP V T} {i k : V}
    (h : k ∈ s.get_neighbours i) : (s.get_constraints k i).isSome = true := by
  obtain ⟨⟨⟨a, b⟩, cs0⟩, hc, hdir⟩ := mem_get_neighbours_iff.mp h
  rcases hdir with ⟨h1, h2⟩ | ⟨h1, h2⟩ <;> subst h1 <;> subst h2
  · exact get_constraints_isSome.mpr (Or.inr (lookupC_isSome_of_mem hc))
  · exact get_constraints_isSome.mpr (Or.inl (lookupC_isSome_of_mem hc))

theorem ac_3_loop_no_assert :
    ∀ (fuel : Nat) (c : CSP V T) (q : List (V × V)),
    (∀ p ∈ q, (c.get_constraints p.1 p.2).isSome = true) →
    ac_3_loop fuel c q ≠ .assertFail := by
  intro fuel
  induction fuel with
  | zero =>
    intro c q hq
    cases q with
    | nil => rw [ac_3_loop_nil_eq]; intro h; cases h
    | cons p rest => rw [ac_3_loop_zero_cons]; intro h; cases h
  | succ fuel ih =>
    intro c q hq
    cases q with
    | nil => rw [ac_3_loop_nil_eq]; intro h; cases h
    | cons p rest =>
      obtain ⟨i, j⟩ := p
      rw [ac_3_loop_cons_eq]
      obtain ⟨cs, hcs⟩ := Option.isSome_iff_exists.mp (hq (i, j) (List.mem_cons_self _ _))
      rw [remove_inconsistencies_eq hcs]
      have hcon : ({ c with domains := Function.update c.domains i (keepSet c i j cs) }
          : CSP V T).constraints = c.constraints := rfl
      split
      · rename_i heq
        cases heq
      · rename_i removed s1 heq
        injection heq with hpair
        simp only [Prod.mk.injEq] at hpair
        obtain ⟨hrem, hs1⟩ := hpair
        subst hrem
        subst hs1
        split
        · split
          · intro h; cases h
          · apply ih
            intro p hp
            rw [List.mem_append] at hp
            rcases hp with hp | hp
            · rw [get_constraints_congr hcon]
              exact hq p (List.mem_cons_of_mem _ hp)
            · rw [List.mem_map] at hp
              obtain ⟨k, hk, hpk⟩ := hp
              rw [List.mem_filter] at hk
              subst hpk
              exact get_constraints_isSome_of_neighbour hk.1
        · apply ih
          intro p hp
          rw [get_constraints_congr hcon]
          exact hq p (List.mem_cons_of_mem _ hp)

/-- C10: every arc `ac_3` ever passes to `remove_inconsistencies` — an arc
seeded from a declared constraint in either direction, or a re-enqueued arc
(k, i) with k a constraint neighbour of i — has a declared constraint in at
least one direction, so `get_constraints` never returns `None` there and the
assertion guarding it never fires: `ac_3` cannot abort with an assertion
error on any state, since its worklist arcs all come from its own
constraints map. -/
theorem ac_3_no_assert_failure (fuel : Nat) (s : CSP V T) :
    ac_3 fuel s ≠ .assertFail :=
  ac_3_loop_no_assert fuel s (initArcs s) fun _ hp => initArcs_isSome hp

theorem add_assignment_some {fuel : Nat} {s : CSP V T} {v : V} {t : T} {b : Bool}
    {s2 : CSP V T} (h : add_assignment fuel s v t = some (b, s2)) :
    v ∈ s.vars ∧ lookupA s.assignments v = none ∧ t ∈ s.domains v ∧
    ac_3 fuel { s with assignments := s.assignments ++ [(v, t)],
                       domains := Function.update s.domains v {t} } = .ok b s2 := by
  unfold CSP.add_assignment at h
  split at h
  · rename_i hcond
    obtain ⟨h1, h2, h3⟩ := hcond
    refine ⟨h1, h2, h3, ?_⟩
    have h4 : (match ac_3 fuel { s with assignments := s.assignments ++ [(v, t)],
                                        domains := Function.update s.domains v {t} } with
               | AC3Result.ok b s2 => some (b, s2)
               | _ => none) = some (b, s2) := h
    clear h
    split at h4
    · rename_i b0 s0 heq
      injection h4 with hpair
      simp only [Prod.mk.injEq] at hpair
      obtain ⟨hb, hs⟩ := hpair
      subst hb
      subst hs
      exact heq
    · cases h4
  · cases h

theorem lookupA_nil (w : V) : lookupA ([] : List (V × T)) w = none := rfl

theorem lookupA_append_of_some {l : List (V × T)} {v w : V} {t u : T}
    (h : lookupA l w = some u) : lookupA (l ++ [(v, t)]) w = some u := by
  induction l with
  | nil => rw [lookupA_nil] at h; cases h
  | cons p pl ih =>
    rw [List.cons_append]
    unfold lookupA at h ⊢
    by_cases hp : p.1 = w
    · rwa [if_pos hp] at h ⊢
    · rw [if_neg hp] at h ⊢
      exact ih h

theorem lookupA_append_none_eq {l : List (V × T)} {v : V} {t : T}
    (h : lookupA l v = none) : lookupA (l ++ [(v, t)]) v = some t := by
  induction l with
  | nil => simp [lookupA]
  | cons p pl ih =>
    rw [List.cons_append]
    unfold lookupA at h ⊢
    by_cases hp : p.1 = v
    · rw [if_pos hp] at h; cases h
    · rw [if_neg hp] at h ⊢
      exact ih h

theorem lookupA_append_cases {l : List (V × T)} {v w : V} {t u : T}
    (h : lookupA (l ++ [(v, t)]) w = some u) :
    lookupA l w = some u ∨ (w = v ∧ u = t ∧ lookupA l w = none) := by
  induction l with
  | nil =>
    rw [List.nil_append] at h
    unfold lookupA at h
    rw [lookupA_nil]
    by_cases hw : v = w
    · rw [if_pos hw] at h
      injection h with hu
      exact Or.inr ⟨hw.symm, hu.symm, rfl⟩
    · rw [if_neg hw] at h
      cases h
  | cons p pl ih =>
    rw [List.cons_append] at h
    unfold lookupA at h ⊢
    by_cases hp : p.1 = w
    · rw [if_pos hp] at h ⊢
      exact Or.inl h
    · rw [if_neg hp] at h ⊢
      exact ih h


theorem add_assignment_preserves_inv {fuel : Nat} {s : CSP V T} {v : V} {t : T}
    {s2 : CSP V T}
    (hinv : ∀ w u, lookupA s.assignments w = some u → w ∈ s.vars ∧ s.domains w = {u})
    (h : add_assignment fuel s v t = some (true, s2)) :
    ∀ w u, lookupA s2.assignments w = some u → w ∈ s2.vars ∧ s2.domains w = {u} := by
  obtain ⟨hv, hnone, ht, hac⟩ := add_assignment_some h
  obtain ⟨hcon, hasg, hvars⟩ := ac_3_loop_ok_fields fuel _ _ hac
  intro w u hw
  rw [hasg] at hw
  rcases lookupA_append_cases hw with hold | ⟨hwv, hut, hl⟩
  · obtain ⟨hwvars, hdom⟩ := hinv w u hold
    have hwne : w ≠ v := fun he => by rw [he, hnone] at hold; cases hold
    have hs1w : Function.update s.domains v {t} w = {u} := by
      rw [Function.update_noteq hwne, hdom]
    refine ⟨by rw [hvars]; exact hwvars, ?_⟩
    have hsub : s2.domains w ⊆ {u} := by
      have := ac_3_loop_mono fuel _ _ hac w
      rw [show ({ s with assignments := s.assignments ++ [(v, t)],
                         domains := Function.update s.domains v {t} } : CSP V T).domains w
          = Function.update s.domains v {t} w from rfl, hs1w] at this
      exact this
    have hne : s2.domains w ≠ ∅ := by
      apply ac_3_loop_true_nonempty fuel _ _ hac w
      rw [show ({ s with assignments := s.assignments ++ [(v, t)],
                         domains := Function.update s.domains v {t} } : CSP V T).domains w
          = Function.update s.domains v {t} w from rfl, hs1w]
      exact Finset.singleton_ne_empty u
    rcases Finset.subset_singleton_iff.mp hsub with he | he
    · exact absurd he hne
    · exact he
  · subst hwv
    subst hut
    have hs1w : Function.update s.domains w {u} w = {u} := Function.update_same ..
    refine ⟨by rw [hvars]; exact hv, ?_⟩
    have hsub : s2.domains w ⊆ {u} := by
      have := ac_3_loop_mono fuel _ _ hac w
      rw [show ({ s with assignments := s.assignments ++ [(w, u)],
                         domains := Function.update s.domains w {u} } : CSP V T).domains w
          = Function.update s.domains w {u} w from rfl, hs1w] at this
      exact this
    have hne : s2.domains w ≠ ∅ := by
      apply ac_3_loop_true_nonempty fuel _ _ hac w
      rw [show ({ s with assignments := s.assignments ++ [(w, u)],
                         domains := Function.update s.domains w {u} } : CSP V T).domains w
          = Function.update s.domains w {u} w from rfl, hs1w]
      exact Finset.singleton_ne_empty u
    rcases Finset.subset_singleton_iff.mp hsub with he | he
    · exact absurd he hne
    · exact he

theorem runAssignments_inv :
    ∀ (l : List (V × T)) (fuel : Nat) (s : CSP V T),
    (∀ w u, lookupA s.assignments w = some u → w ∈ s.vars ∧ s.domains w = {u}) →
    ∀ s2, runAssignments fuel s l = some s2 →
    ∀ w u, lookupA s2.assignments w = some u → w ∈ s2.vars ∧ s2.domains w = {u} := by
  intro l
  induction l with
  | nil =>
    intro fuel s hinv s2 hrun
    unfold runAssignments at hrun
    injection hrun with hs
    subst hs
    exact hinv
  | cons p rest ih =>
    intro fuel s hinv s2 hrun
    obtain ⟨v, t⟩ := p
    unfold runAssignments at hrun
    split at hrun
    · rename_i s1 heq
      exact ih fuel s1 (add_assignment_preserves_inv hinv heq) s2 hrun
    · cases hrun

/-- C5: starting from an unassigned instance, after any sequence of
`add_assignment` calls that each reported a consistent state, every
assignment key is a declared variable and the domain of every assigned
variable is exactly the singleton of its assigned value. -/
theorem add_assignment_invariant (fuel : Nat) (s : CSP V T) (l : List (V × T))
    (s2 : CSP V T) (hstart : s.assignments = [])
    (hrun : runAssignments fuel s l = some s2) :
    ∀ w u, lookupA s2.assignments w = some u → w ∈ s2.vars ∧ s2.domains w = {u} :=
  runAssignments_inv l fuel s
    (fun w u hw => by rw [hstart, lookupA_nil] at hw; cases hw) s2 hrun

/-- Witness for C5: two consistent assignments on the triangle instance. -/
theorem add_assignment_invariant_witness :
    triInst.assignments = [] ∧
    runAssignments 20 triInst [(0, 0), (1, 1)] = some triRunAsgS ∧
    ∀ w u, lookupA triRunAsgS.assignments w = some u →
      w ∈ triRunAsgS.vars ∧ triRunAsgS.domains w = {u} :=
  ⟨rfl, rfl, add_assignment_invariant 20 triInst [(0, 0), (1, 1)] triRunAsgS rfl rfl⟩

theorem popFinset_eq {c : Finset V} (h : c.Nonempty) :
    popFinset c = some (c.min' h) := dif_pos h

/-- C9: with at least one unassigned declared variable, `get_next_variable`
returns an unassigned declared variable of minimum remaining domain size
among the unassigned ones; when several are tied at that size, the returned
variable moreover has maximal degree among the tied ones (any remaining tie
is broken arbitrarily). -/
theorem get_next_variable_mrv_degree (s : CSP V T)
    (h : (s.vars.filter fun v => lookupA s.assignments v = none).Nonempty) :
    ∃ r, s.get_next_variable = some r ∧
      r ∈ s.vars ∧ lookupA s.assignments r = none ∧
      (∀ u ∈ s.vars.filter (fun v => lookupA s.assignments v = none),
        (s.domains r).card ≤ (s.domains u).card) ∧
      (1 < ((s.vars.filter fun v => lookupA s.assignments v = none).filter
            (fun v => (s.domains v).card = (s.domains r).card)).card →
        ∀ u ∈ (s.vars.filter fun v => lookupA s.assignments v = none).filter
            (fun v => (s.domains v).card = (s.domains r).card),
          s.get_degrees u ≤ s.get_degrees r) := by
  have hgnv : s.get_next_variable =
      (if ((s.vars.filter fun v => lookupA s.assignments v = none).filter
            (fun v => (s.domains v).card =
              (s.vars.filter fun v => lookupA s.assignments v = none).inf' h
                (fun v => (s.domains v).card))).card = 1 then
        popFinset ((s.vars.filter fun v => lookupA s.assignments v = none).filter
            (fun v => (s.domains v).card =
              (s.vars.filter fun v => lookupA s.assignments v = none).inf' h
                (fun v => (s.domains v).card)))
      else if h2 : ((s.vars.filter fun v => lookupA s.assignments v = none).filter
            (fun v => (s.domains v).card =
              (s.vars.filter fun v => lookupA s.assignments v = none).inf' h
                (fun v => (s.domains v).card))).Nonempty then
        popFinset (((s.vars.filter fun v => lookupA s.assignments v = none).filter
            (fun v => (s.domains v).card =
              (s.vars.filter fun v => lookupA s.assignments v = none).inf' h
                (fun v => (s.domains v).card))).filter
          (fun v => s.get_degrees v =
            ((s.vars.filter fun v => lookupA s.assignments v = none).filter
              (fun v => (s.domains v).card =
                (s.vars.filter fun v => lookupA s.assignments v = none).inf' h
                  (fun v => (s.domains v).card))).sup' h2 s.get_degrees))
      else none) := by
    unfold CSP.get_next_variable
    rw [dif_pos h]
  obtain ⟨w, hw, hweq⟩ :=
    Finset.exists_mem_eq_inf' h (fun v => (s.domains v).card)
  have hc2ne : ((s.vars.filter fun v => lookupA s.assignments v = none).filter
      (fun v => (s.domains v).card =
        (s.vars.filter fun v => lookupA s.assignments v = none).inf' h
          (fun v => (s.domains v).card))).Nonempty :=
    ⟨w, Finset.mem_filter.mpr ⟨hw, hweq.symm⟩⟩
  by_cases hone : ((s.vars.filter fun v => lookupA s.assignments v = none).filter
      (fun v => (s.domains v).card =
        (s.vars.filter fun v => lookupA s.assignments v = none).inf' h
          (fun v => (s.domains v).card))).card = 1
  · rw [if_pos hone, popFinset_eq hc2ne] at hgnv
    set r := (((s.vars.filter fun v => lookupA s.assignments v = none).filter
      (fun v => (s.domains v).card =
        (s.vars.filter fun v => lookupA s.assignments v = none).inf' h
          (fun v => (s.domains v).card)))).min' hc2ne with hr
    have hrmem := Finset.min'_mem _ hc2ne
    rw [← hr] at hrmem
    obtain ⟨hrc, hrm⟩ := Finset.mem_filter.mp hrmem
    obtain ⟨hrv, hrn⟩ := Finset.mem_filter.mp hrc
    refine ⟨r, hgnv, hrv, hrn, ?_, ?_⟩
    · intro u hu
      rw [hrm]
      exact Finset.inf'_le _ hu
    · intro hgt u hu
      have heqset : ((s.vars.filter fun v => lookupA s.assignments v = none).filter
          (fun v => (s.domains v).card = (s.domains r).card)) =
          ((s.vars.filter fun v => lookupA s.assignments v = none).filter
          (fun v => (s.domains v).card =
            (s.vars.filter fun v => lookupA s.assignments v = none).inf' h
              (fun v => (s.domains v).card))) := by
        rw [hrm]
      rw [heqset] at hgt
      rw [hone] at hgt
      exact absurd hgt (by decide)
  · rw [if_neg hone, dif_pos hc2ne] at hgnv
    obtain ⟨w3, hw3, hw3eq⟩ := Finset.exists_mem_eq_sup' hc2ne s.get_degrees
    have hc3ne : (((s.vars.filter fun v => lookupA s.assignments v = none).filter
        (fun v => (s.domains v).card =
          (s.vars.filter fun v => lookupA s.assignments v = none).inf' h
            (fun v => (s.domains v).card))).filter
        (fun v => s.get_degrees v =
          ((s.vars.filter fun v => lookupA s.assignments v = none).filter
            (fun v => (s.domains v).card =
              (s.vars.filter fun v => lookupA s.assignments v = none).inf' h
                (fun v => (s.domains v).card))).sup' hc2ne s.get_degrees)).Nonempty :=
      ⟨w3, Finset.mem_filter.mpr ⟨hw3, hw3eq.symm⟩⟩
    rw [popFinset_eq hc3ne] at hgnv
    set r := ((((s.vars.filter fun v => lookupA s.assignments v = none).filter
        (fun v => (s.domains v).card =
          (s.vars.filter fun v => lookupA s.assignments v = none).inf' h
            (fun v => (s.domains v).card))).filter
        (fun v => s.get_degrees v =
          ((s.vars.filter fun v => lookupA s.assignments v = none).filter
            (fun v => (s.domains v).card =
              (s.vars.filter fun v => lookupA s.assignments v = none).inf' h
                (fun v => (s.domains v).card))).sup' hc2ne s.get_degrees))).min' hc3ne
      with hr
    have hrmem := Finset.min'_mem _ hc3ne
    rw [← hr] at hrmem
    obtain ⟨hrc2, hrdeg⟩ := Finset.mem_filter.mp hrmem
    obtain ⟨hrc, hrm⟩ := Finset.mem_filter.mp hrc2
    obtain ⟨hrv, hrn⟩ := Finset.mem_filter.mp hrc
    refine ⟨r, hgnv, hrv, hrn, ?_, ?_⟩
    · intro u hu
      rw [hrm]
      exact Finset.inf'_le _ hu
    · intro hgt u hu
      have heqset : ((s.vars.filter fun v => lookupA s.assignments v = none).filter
          (fun v => (s.domains v).card = (s.domains r).card)) =
          ((s.vars.filter fun v => lookupA s.assignments v = none).filter
          (fun v => (s.domains v).card =
            (s.vars.filter fun v => lookupA s.assignments v = none).inf' h
              (fun v => (s.domains v).card))) := by
        rw [hrm]
      rw [heqset] at hu
      rw [hrdeg]
      exact Finset.le_sup' s.get_degrees hu

theorem lookupC_eq_some_mem {l : List ((V × V) × Finset (T × T))} {k : V × V}
    {cs : Finset (T × T)} (h : lookupC l k = some cs) : (k, cs) ∈ l := by
  induction l with
  | nil => cases h
  | cons c cl ih =>
    unfold lookupC at h
    by_cases hc : c.1 = k
    · rw [if_pos hc] at h
      injection h with hcs
      exact List.mem_cons.mpr (Or.inl (by rw [← hc, ← hcs]))
    · rw [if_neg hc] at h
      exact List.mem_cons_of_mem _ (ih h)

theorem lookupC_isSome_mem {l : List ((V × V) × Finset (T × T))} {k : V × V}
    (h : (lookupC l k).isSome = true) : ∃ cs, (k, cs) ∈ l := by
  cases hl : lookupC l k with
  | none => rw [hl] at h; cases h
  | some cs => exact ⟨cs, lookupC_eq_some_mem hl⟩

theorem lookupC_eq_none_of_forall {l : List ((V × V) × Finset (T × T))} {k : V × V}
    (h : ∀ cs, (k, cs) ∉ l) : lookupC l k = none := by
  cases hl : lookupC l k with
  | none => rfl
  | some cs => exact absurd (lookupC_eq_some_mem hl) (h cs)

theorem ne_of_isSome_singleOrient {s : CSP V T} (hso : SingleOrient s) {i j : V}
    (h : (s.get_constraints i j).isSome = true) : i ≠ j := by
  intro he
  subst he
  rcases get_constraints_isSome.mp h with h1 | h1
  · obtain ⟨cs, hm⟩ := lookupC_isSome_mem h1
    exact hso.1 _ hm rfl
  · obtain ⟨cs, hm⟩ := lookupC_isSome_mem h1
    exact hso.1 _ hm rfl

theorem SingleOrient_congr {s1 s : CSP V T} (h : s1.constraints = s.constraints)
    (hso : SingleOrient s) : SingleOrient s1 := by
  unfold SingleOrient at hso ⊢
  rw [h]
  exact hso

theorem get_constraints_swap {s : CSP V T} (hso : SingleOrient s) {i j : V}
    {cs : Finset (T × T)} (h : s.get_constraints i j = some cs) :
    s.get_constraints j i = some (cs.image fun p => (p.2, p.1)) := by
  unfold CSP.get_constraints at h ⊢
  cases h1 : lookupC s.constraints (i, j) with
  | some cs0 =>
    rw [h1] at h
    injection h with hcs
    subst hcs
    have hnone : lookupC s.constraints (j, i) = none := by
      apply lookupC_eq_none_of_forall
      intro cs1 hmem
      exact absurd rfl (hso.2 ((j, i), cs1) hmem ((i, j), cs0) (lookupC_eq_some_mem h1))
    simp only [hnone, h1]
  | none =>
    rw [h1] at h
    cases h2 : lookupC s.constraints (j, i) with
    | none => rw [h2] at h; cases h
    | some cs1 =>
      rw [h2] at h
      injection h with hcs
      subst hcs
      simp only [h2]
      show some cs1 = some ((cs1.image fun p => (p.2, p.1)).image fun p => (p.2, p.1))
      congr 1
      rw [Finset.image_image]
      have hcomp : ((fun p : T × T => (p.2, p.1)) ∘ fun p : T × T => (p.2, p.1)) = id := by
        funext p
        rfl
      rw [hcomp, Finset.image_id]

theorem neighbour_of_isSome {s : CSP V T} {a b : V}
    (h : (s.get_constraints a b).isSome = true) : a ∈ s.get_neighbours b := by
  rcases get_constraints_isSome.mp h with h1 | h1
  · obtain ⟨cs, hm⟩ := lookupC_isSome_mem h1
    exact mem_get_neighbours_iff.mpr ⟨((a, b), cs), hm, Or.inr ⟨rfl, rfl⟩⟩
  · obtain ⟨cs, hm⟩ := lookupC_isSome_mem h1
    exact mem_get_neighbours_iff.mpr ⟨((b, a), cs), hm, Or.inl ⟨rfl, rfl⟩⟩

theorem mem_initArcs_of_isSome {s : CSP V T} {a b : V}
    (h : (s.get_constraints a b).isSome = true) : (a, b) ∈ initArcs s := by
  unfold initArcs
  rcases get_constraints_isSome.mp h with h1 | h1
  · obtain ⟨cs, hm⟩ := lookupC_isSome_mem h1
    exact List.mem_append_left _ (List.mem_map.mpr ⟨((a, b), cs), hm, rfl⟩)
  · obtain ⟨cs, hm⟩ := lookupC_isSome_mem h1
    exact List.mem_append_right _ (List.mem_map.mpr ⟨((b, a), cs), hm, rfl⟩)

theorem ac_3_loop_fixpoint :
    ∀ (fuel : Nat) (c : CSP V T) (q : List (V × V)) {s' : CSP V T},
    SingleOrient c →
    (∀ p ∈ q, (c.get_constraints p.1 p.2).isSome = true) →
    (∀ a b, (c.get_constraints a b).isSome = true → (a, b) ∈ q ∨ Revised c a b) →
    ac_3_loop fuel c q = .ok true s' →
    ∀ a b, (s'.get_constraints a b).isSome = true → Revised s' a b := by
  intro fuel
  induction fuel with
  | zero =>
    intro c q s' hso hq hinv h a b hab
    cases q with
    | nil =>
      rw [ac_3_loop_nil_eq] at h
      injection h with hb hs
      subst hs
      rcases hinv a b hab with hin | hrev
      · cases hin
      · exact hrev
    | cons p rest => rw [ac_3_loop_zero_cons] at h; cases h
  | succ fuel ih =>
    intro c q s' hso hq hinv h a b hab
    cases q with
    | nil =>
      rw [ac_3_loop_nil_eq] at h
      injection h with hb hs
      subst hs
      rcases hinv a b hab with hin | hrev
      · cases hin
      · exact hrev
    | cons p rest =>
      obtain ⟨i, j⟩ := p
      have hijS : (c.get_constraints i j).isSome = true := hq (i, j) (List.mem_cons_self _ _)
      have hij : i ≠ j := ne_of_isSome_singleOrient hso hijS
      obtain ⟨cs, hcs⟩ := Option.isSome_iff_exists.mp hijS
      rw [ac_3_loop_cons_eq, remove_inconsistencies_eq hcs] at h
      set S1 : CSP V T := { c with domains := Function.update c.domains i (keepSet c i j cs) }
        with hS1def
      have h4 : (if decide (∃ t ∈ c.domains i, t ∉ keepSet c i j cs) = true then
            (if S1.domains i = ∅ then AC3Result.ok false S1
             else ac_3_loop fuel S1
               (rest ++ ((S1.get_neighbours i).filter fun k => k ≠ j).map fun k => (k, i)))
          else ac_3_loop fuel S1 rest) = .ok true s' := h
      have hS1i : S1.domains i = keepSet c i j cs := Function.update_same ..
      have hS1ne : ∀ w, w ≠ i → S1.domains w = c.domains w :=
        fun w hw => Function.update_noteq hw ..
      have hS1con : S1.constraints = c.constraints := rfl
      have hgc1 : ∀ a2 b2, S1.get_constraints a2 b2 = c.get_constraints a2 b2 :=
        fun a2 b2 => get_constraints_congr hS1con a2 b2
      by_cases hrem : ∃ t ∈ c.domains i, t ∉ keepSet c i j cs
      · rw [decide_eq_true hrem] at h4
        have h5 : (if S1.domains i = ∅ then AC3Result.ok false S1
             else ac_3_loop fuel S1
               (rest ++ ((S1.get_neighbours i).filter fun k => k ≠ j).map fun k => (k, i)))
            = .ok true s' := h4
        by_cases hde : S1.domains i = ∅
        · rw [if_pos hde] at h5
          injection h5 with hb
          cases hb
        · rw [if_neg hde] at h5
          have hso1 : SingleOrient S1 := SingleOrient_congr hS1con hso
          have hq1 : ∀ p ∈ rest ++ ((S1.get_neighbours i).filter fun k => k ≠ j).map
              fun k => (k, i), (S1.get_constraints p.1 p.2).isSome = true := by
            intro p hp
            rcases List.mem_append.mp hp with hp | hp
            · rw [hgc1]
              exact hq p (List.mem_cons_of_mem _ hp)
            · obtain ⟨k, hk, hpk⟩ := List.mem_map.mp hp
              subst hpk
              exact get_constraints_isSome_of_neighbour (List.mem_filter.mp hk).1
          have hinv1 : ∀ a2 b2, (S1.get_constraints a2 b2).isSome = true →
              (a2, b2) ∈ rest ++ ((S1.get_neighbours i).filter fun k => k ≠ j).map
                (fun k => (k, i)) ∨ Revised S1 a2 b2 := by
            intro a2 b2 hab2
            rw [hgc1] at hab2
            rcases hinv a2 b2 hab2 with hin | hrev
            · rcases List.mem_cons.mp hin with he | hin2
              · right
                have hae : a2 = i := congrArg Prod.fst he
                have hbe : b2 = j := congrArg Prod.snd he
                rw [hae, hbe]
                intro cs2 hcs2 t ht
                rw [hgc1, hcs] at hcs2
                injection hcs2 with hcse
                subst hcse
                rw [hS1i] at ht
                obtain ⟨hti, u, hu, hmem⟩ := mem_keepSet.mp ht
                refine ⟨u, ?_, hmem⟩
                rw [hS1ne j (Ne.symm hij)]
                exact hu
              · exact Or.inl (List.mem_append_left _ hin2)
            · by_cases hb2 : b2 = i
              · by_cases ha2 : a2 = j
                · right
                  rw [ha2, hb2]
                  rw [ha2, hb2] at hrev
                  intro cs2 hcs2 w hw
                  rw [hgc1, get_constraints_swap hso hcs] at hcs2
                  injection hcs2 with hcse
                  subst hcse
                  rw [hS1ne j (Ne.symm hij)] at hw
                  obtain ⟨t0, ht0, hmem0⟩ := hrev _ (get_constraints_swap hso hcs) w hw
                  obtain ⟨p0, hp0, hpe⟩ := Finset.mem_image.mp hmem0
                  have hp2 : p0.2 = w := congrArg Prod.fst hpe
                  have hp1 : p0.1 = t0 := congrArg Prod.snd hpe
                  have ht0keep : t0 ∈ keepSet c i j cs := by
                    apply mem_keepSet.mpr
                    refine ⟨ht0, w, hw, ?_⟩
                    rw [← hp1, ← hp2]
                    exact hp0
                  refine ⟨t0, ?_, hmem0⟩
                  rw [hS1i]
                  exact ht0keep
                · left
                  apply List.mem_append_right
                  apply List.mem_map.mpr
                  refine ⟨a2, ?_, by rw [hb2]⟩
                  apply List.mem_filter.mpr
                  constructor
                  · apply neighbour_of_isSome
                    rw [hgc1, ← hb2]
                    exact hab2
                  · simpa using ha2
              · right
                intro cs2 hcs2 t ht
                rw [hgc1] at hcs2
                have htc : t ∈ c.domains a2 := by
                  by_cases ha2i : a2 = i
                  · rw [ha2i, hS1i] at ht
                    rw [ha2i]
                    exact keepSet_subset _ _ _ _ ht
                  · rw [hS1ne a2 ha2i] at ht
                    exact ht
                obtain ⟨u, hu, hmem⟩ := hrev cs2 hcs2 t htc
                refine ⟨u, ?_, hmem⟩
                rw [hS1ne b2 hb2]
                exact hu
          exact ih S1 _ hso1 hq1 hinv1 h5 a b hab
      · rw [decide_eq_false hrem] at h4
        have h5 : ac_3_loop fuel S1 rest = .ok true s' := h4
        have hkeep : keepSet c i j cs = c.domains i := by
          apply Finset.Subset.antisymm (keepSet_subset ..)
          intro t ht
          by_contra hnk
          exact hrem ⟨t, ht, hnk⟩
        have hS1c : S1 = c := by
          refine CSP.eq_of_fields rfl ?_ rfl rfl
          show Function.update c.domains i (keepSet c i j cs) = c.domains
          rw [hkeep, Function.update_eq_self]
        rw [hS1c] at h5
        have hinv2 : ∀ a2 b2, (c.get_constraints a2 b2).isSome = true →
            (a2, b2) ∈ rest ∨ Revised c a2 b2 := by
          intro a2 b2 hab2
          rcases hinv a2 b2 hab2 with hin | hrev
          · rcases List.mem_cons.mp hin with he | hin2
            · right
              have hae : a2 = i := congrArg Prod.fst he
              have hbe : b2 = j := congrArg Prod.snd he
              rw [hae, hbe]
              intro cs2 hcs2 t ht
              rw [hcs] at hcs2
              injection hcs2 with hcse
              subst hcse
              have ht2 : t ∈ keepSet c i j cs := by
                rw [hkeep]
                exact ht
              exact (mem_keepSet.mp ht2).2
            · exact Or.inl hin2
          · exact Or.inr hrev
        exact ih c rest hso (fun p hp => hq p (List.mem_cons_of_mem _ hp)) hinv2 h5 a b hab

theorem ac_3_loop_all_revised :
    ∀ (fuel : Nat) (c : CSP V T) (q : List (V × V)),
    (∀ p ∈ q, (c.get_constraints p.1 p.2).isSome = true) →
    (∀ a b, (c.get_constraints a b).isSome = true → Revised c a b) →
    q.length ≤ fuel →
    ac_3_loop fuel c q = .ok true c := by
  intro fuel
  induction fuel with
  | zero =>
    intro c q hq hrev hlen
    cases q with
    | nil => rw [ac_3_loop_nil_eq]
    | cons p rest => exact absurd hlen (by simp)
  | succ fuel ih =>
    intro c q hq hrev hlen
    cases q with
    | nil => rw [ac_3_loop_nil_eq]
    | cons p rest =>
      obtain ⟨i, j⟩ := p
      have hijS : (c.get_constraints i j).isSome = true := hq (i, j) (List.mem_cons_self _ _)
      obtain ⟨cs, hcs⟩ := Option.isSome_iff_exists.mp hijS
      have hkeep : keepSet c i j cs = c.domains i := by
        apply Finset.Subset.antisymm (keepSet_subset ..)
        intro t ht
        exact mem_keepSet.mpr ⟨ht, hrev i j hijS cs hcs t ht⟩
      have hnorem : ¬ ∃ t ∈ c.domains i, t ∉ keepSet c i j cs := by
        rintro ⟨t, ht, hnk⟩
        rw [hkeep] at hnk
        exact hnk ht
      rw [ac_3_loop_cons_eq, remove_inconsistencies_eq hcs, decide_eq_false hnorem]
      have hstep : ac_3_loop fuel
          ({ c with domains := Function.update c.domains i (keepSet c i j cs) } : CSP V T)
          rest = .ok true c := by
        rw [show ({ c with domains := Function.update c.domains i (keepSet c i j cs) }
            : CSP V T) = c from by
          refine CSP.eq_of_fields rfl ?_ rfl rfl
          show Function.update c.domains i (keepSet c i j cs) = c.domains
          rw [hkeep, Function.update_eq_self]]
        exact ih c rest (fun p hp => hq p (List.mem_cons_of_mem _ hp)) hrev
          (Nat.le_of_succ_le_succ hlen)
      exact hstep

/-- C7 counterexample: two valid instances on which running `ac_3` a second
time immediately after a first run that returned `True` removes further
values and returns `False`: `selfLoopInst` declares a self-loop constraint
key, and `twoWayInst` (all of whose keys have distinct endpoints) declares
both orientations of the pair (0, 1) as independent keys, so the arc skipped
at re-enqueue time is unsound. -/
theorem ac_3_not_idempotent :
    (ValidInst selfLoopInst ∧
      ac_3 20 selfLoopInst = .ok (ac3Flag selfLoopRun1) selfLoopS1 ∧
      ac3Flag selfLoopRun1 = true ∧
      ac_3 20 selfLoopS1 = .ok (ac3Flag selfLoopRun2) selfLoopS2 ∧
      ac3Flag selfLoopRun2 = false ∧
      1 ∈ selfLoopS1.domains 0 ∧ 1 ∉ selfLoopS2.domains 0) ∧
    (ValidInst twoWayInst ∧ (∀ c ∈ twoWayInst.constraints, c.1.1 ≠ c.1.2) ∧
      ac_3 20 twoWayInst = .ok (ac3Flag twoWayRun1) twoWayS1 ∧
      ac3Flag twoWayRun1 = true ∧
      ac_3 20 twoWayS1 = .ok (ac3Flag twoWayRun2) twoWayS2 ∧
      ac3Flag twoWayRun2 = false ∧
      0 ∈ twoWayS1.domains 1 ∧ 0 ∉ twoWayS2.domains 1) :=
  ⟨⟨⟨by decide, by decide, by decide⟩, rfl, by decide, rfl, by decide, by decide, by decide⟩,
   ⟨⟨by decide, by decide, by decide⟩, by decide, rfl, by decide, rfl, by decide, by decide,
    by decide⟩⟩

/-- C7 (amended to instances whose constraint keys have distinct endpoints
and cover each unordered pair in at most one orientation): after a first
`ac_3` run returning `True`, a second run with enough fuel for its seeded
worklist removes nothing from any domain and again returns `True` — the
state it returns is exactly the state it started from. -/
theorem ac_3_idempotent_single_orientation (fuel fuel2 : Nat) (s s1 : CSP V T)
    (hv : ValidInst s) (hso : SingleOrient s)
    (h1 : ac_3 fuel s = .ok true s1)
    (hfuel2 : (initArcs s1).length ≤ fuel2) :
    ac_3 fuel2 s1 = .ok true s1 := by
  have hrev : ∀ a b, (s1.get_constraints a b).isSome = true → Revised s1 a b :=
    ac_3_loop_fixpoint fuel s _ hso (fun p hp => initArcs_isSome hp)
      (fun a b hab => Or.inl (mem_initArcs_of_isSome hab)) h1
  exact ac_3_loop_all_revised fuel2 s1 _ (fun p hp => initArcs_isSome hp) hrev hfuel2

/-- Witness for the amended C7 on `pairInst`. -/
theorem ac_3_idempotent_single_orientation_witness :
    ValidInst pairInst ∧ SingleOrient pairInst ∧
    ac_3 20 pairInst = .ok true pairAc3S ∧
    (initArcs pairAc3S).length ≤ 20 ∧
    ac_3 20 pairAc3S = .ok true pairAc3S := by
  refine ⟨⟨by decide, by decide, by decide⟩, ⟨by decide, by decide⟩, rfl, by decide, ?_⟩
  exact ac_3_idempotent_single_orientation 20 20 pairInst pairAc3S
    ⟨by decide, by decide, by decide⟩ ⟨by decide, by decide⟩ rfl (by decide)

/-- Witness for C9 on the four-node instance, whose variables are tied on
domain size and differ in degree. -/
theorem get_next_variable_mrv_degree_witness :
    (oddCycleInst.vars.filter fun v => lookupA oddCycleInst.assignments v = none).Nonempty ∧
    ∃ r, oddCycleInst.get_next_variable = some r ∧
      r ∈ oddCycleInst.vars ∧ lookupA oddCycleInst.assignments r = none ∧
      (∀ u ∈ oddCycleInst.vars.filter (fun v => lookupA oddCycleInst.assignments v = none),
        (oddCycleInst.domains r).card ≤ (oddCycleInst.domains u).card) ∧
      (1 < ((oddCycleInst.vars.filter fun v => lookupA oddCycleInst.assignments v = none).filter
            (fun v => (oddCycleInst.domains v).card = (oddCycleInst.domains r).card)).card →
        ∀ u ∈ (oddCycleInst.vars.filter fun v => lookupA oddCycleInst.assignments v = none).filter
            (fun v => (oddCycleInst.domains v).card = (oddCycleInst.domains r).card),
          oddCycleInst.get_degrees u ≤ oddCycleInst.get_degrees r) :=
  ⟨by decide, get_next_variable_mrv_degree oddCycleInst (by decide)⟩

theorem lookupA_none_keys {l : List (V × T)} {v : V} (h : lookupA l v = none) :
    ∀ p ∈ l, p.1 ≠ v := by
  induction l with
  | nil => intro p hp; cases hp
  | cons q ql ih =>
    unfold lookupA at h
    by_cases hq : q.1 = v
    · rw [if_pos hq] at h; cases h
    · rw [if_neg hq] at h
      intro p hp
      rcases List.mem_cons.mp hp with he | hm
      · rw [he]; exact hq
      · exact ih h p hm

theorem lookupA_isSome_of_mem_key {l : List (V × T)} {p : V × T} (h : p ∈ l) :
    ∃ t, lookupA l p.1 = some t := by
  induction l with
  | nil => cases h
  | cons q ql ih =>
    unfold lookupA
    by_cases hq : q.1 = p.1
    · rw [if_pos hq]; exact ⟨q.2, rfl⟩
    · rw [if_neg hq]
      rcases List.mem_cons.mp h with he | hm
      · rw [he] at hq; exact absurd rfl hq
      · exact ih hm

theorem lookupA_isSome_of_complete {l : List (V × T)} {vs : Finset V}
    (hnd : (l.map fun p => p.1).Nodup) (hsub : ∀ p ∈ l, p.1 ∈ vs)
    (hlen : l.length = vs.card) : ∀ v ∈ vs, ∃ t, lookupA l v = some t := by
  have h1 : (l.map fun p => p.1).toFinset ⊆ vs := by
    intro x hx
    rw [List.mem_toFinset] at hx
    obtain ⟨p, hp, he⟩ := List.mem_map.mp hx
    exact he ▸ hsub p hp
  have hcard : (l.map fun p => p.1).toFinset.card = l.length := by
    rw [List.toFinset_card_of_nodup hnd, List.length_map]
  have heq : (l.map fun p => p.1).toFinset = vs :=
    Finset.eq_of_subset_of_card_le h1 (by rw [hcard, hlen])
  intro v hv
  rw [← heq, List.mem_toFinset] at hv
  obtain ⟨p, hp, he⟩ := List.mem_map.mp hv
  rw [← he]
  exact lookupA_isSome_of_mem_key hp

theorem lookupC_of_mem_nodup {l : List ((V × V) × Finset (T × T))}
    (hnd : (l.map fun c => c.1).Nodup) {k : V × V} {cs : Finset (T × T)}
    (h : (k, cs) ∈ l) : lookupC l k = some cs := by
  induction l with
  | nil => cases h
  | cons c cl ih =>
    rw [List.map_cons, List.nodup_cons] at hnd
    unfold lookupC
    rcases List.mem_cons.mp h with he | hm
    · rw [← he]
      rw [if_pos rfl]
    · by_cases hc : c.1 = k
      · exfalso
        apply hnd.1
        rw [hc]
        exact List.mem_map.mpr ⟨(k, cs), hm, rfl⟩
      · rw [if_neg hc]
        exact ih hnd.2 hm

theorem get_constraints_of_mem_nodup {s : CSP V T}
    (hnd : (s.constraints.map fun c => c.1).Nodup) {i j : V} {cs : Finset (T × T)}
    (h : ((i, j), cs) ∈ s.constraints) : s.get_constraints i j = some cs := by
  unfold CSP.get_constraints
  rw [lookupC_of_mem_nodup hnd h]

theorem ac_3_loop_singleton :
    ∀ (fuel : Nat) (c : CSP V T) (q : List (V × V)) {s' : CSP V T},
    (∀ v ∈ c.vars, (c.domains v).card ≤ 1) →
    (∀ p ∈ q, p.1 ∈ c.vars) →
    ac_3_loop fuel c q = .ok true s' →
    s' = c ∧ ∀ p ∈ q, ∃ cs, c.get_constraints p.1 p.2 = some cs ∧
      ∀ t ∈ c.domains p.1, ∃ u ∈ c.domains p.2, (t, u) ∈ cs := by
  intro fuel
  induction fuel with
  | zero =>
    intro c q s' hsing hq h
    cases q with
    | nil =>
      rw [ac_3_loop_nil_eq] at h
      injection h with hb hs
      subst hs
      exact ⟨rfl, fun p hp => absurd hp (List.not_mem_nil p)⟩
    | cons p rest => rw [ac_3_loop_zero_cons] at h; cases h
  | succ fuel ih =>
    intro c q s' hsing hq h
    cases q with
    | nil =>
      rw [ac_3_loop_nil_eq] at h
      injection h with hb hs
      subst hs
      exact ⟨rfl, fun p hp => absurd hp (List.not_mem_nil p)⟩
    | cons p rest =>
      obtain ⟨i, j⟩ := p
      rw [ac_3_loop_cons_eq] at h
      split at h
      · cases h
      · rename_i removed s1 hri
        obtain ⟨cs, hgc, hdom, hcon, hasg, hvar, hiff⟩ := remove_inconsistencies_some hri
        split at h
        · rename_i hrt
          exfalso
          obtain ⟨t, ht, hnk⟩ := hiff.mp hrt
          have hcard := hsing i (hq (i, j) (List.mem_cons_self _ _))
          have hdi : c.domains i = {t} := by
            have hpos : 0 < (c.domains i).card := Finset.card_pos.mpr ⟨t, ht⟩
            have hone : (c.domains i).card = 1 := le_antisymm hcard hpos
            obtain ⟨x, hx⟩ := Finset.card_eq_one.mp hone
            rw [hx] at ht
            rw [Finset.mem_singleton] at ht
            rw [hx, ht]
          have hkeepe : keepSet c i j cs = ∅ := by
            rw [Finset.eq_empty_iff_forall_not_mem]
            intro x hx
            have hxd := keepSet_subset c i j cs hx
            rw [hdi, Finset.mem_singleton] at hxd
            rw [hxd] at hx
            exact hnk hx
          have hs1e : s1.domains i = ∅ := by
            rw [hdom, Function.update_same, hkeepe]
          split at h
          · injection h with hb
            cases hb
          · rename_i hne
            exact hne hs1e
        · rename_i hrf
          have hrf2 : removed = false := by
            revert hrf; cases removed <;> simp
          rw [hrf2] at hri
          have hkeep : keepSet c i j cs = c.domains i := by
            apply Finset.Subset.antisymm (keepSet_subset ..)
            intro t ht
            by_contra hnk
            obtain ⟨cs2, hgc2, hdom2, _, _, _, hiff2⟩ := remove_inconsistencies_some hri
            rw [hgc] at hgc2
            injection hgc2 with hcse
            subst hcse
            exact absurd (hiff2.mpr ⟨t, ht, hnk⟩) (by simp)
          have hs1c := remove_inconsistencies_false hri
          subst hs1c
          obtain ⟨hfin, hrest⟩ := ih s1 rest hsing
            (fun p hp => hq p (List.mem_cons_of_mem _ hp)) h
          refine ⟨hfin, fun p hp => ?_⟩
          rcases List.mem_cons.mp hp with he | hm
          · refine ⟨cs, by rw [he]; exact hgc, ?_⟩
            rw [he]
            intro t ht
            have ht2 : t ∈ keepSet s1 i j cs := by
              rw [hkeep]
              exact ht
            exact (mem_keepSet.mp ht2).2
          · exact hrest p hm

theorem add_assignment_state_inv {fuelA : Nat} {s0 s s2 : CSP V T} {v : V} {t : T}
    (hvars : s.vars = s0.vars) (hcons : s.constraints = s0.constraints)
    (hdom : ∀ w, s.domains w ⊆ s0.domains w)
    (hnd : (s.assignments.map fun p => p.1).Nodup)
    (hkeys : ∀ p ∈ s.assignments, p.1 ∈ s.vars)
    (hlk : ∀ w u, lookupA s.assignments w = some u → s.domains w = {u} ∧ u ∈ s0.domains w)
    (h : add_assignment fuelA s v t = some (true, s2)) :
    s2.vars = s0.vars ∧ s2.constraints = s0.constraints ∧
    (∀ w, s2.domains w ⊆ s0.domains w) ∧
    s2.assignments = s.assignments ++ [(v, t)] ∧
    (s2.assignments.map fun p => p.1).Nodup ∧
    (∀ p ∈ s2.assignments, p.1 ∈ s2.vars) ∧
    (∀ w u, lookupA s2.assignments w = some u → s2.domains w = {u} ∧ u ∈ s0.domains w) := by
  obtain ⟨hv, hnone, ht, hac⟩ := add_assignment_some h
  obtain ⟨hcon2, hasg2, hvars2⟩ := ac_3_loop_ok_fields fuelA _ _ hac
  have hvars2s : s2.vars = s.vars := hvars2
  have hcon2s : s2.constraints = s.constraints := hcon2
  have hasg2s : s2.assignments = s.assignments ++ [(v, t)] := hasg2
  have hdsub : ∀ w, s2.domains w ⊆ Function.update s.domains v {t} w := by
    intro w
    exact ac_3_loop_mono fuelA _ _ hac w
  refine ⟨hvars2s.trans hvars, hcon2s.trans hcons, ?_, hasg2s, ?_, ?_, ?_⟩
  · intro w
    refine (hdsub w).trans ?_
    by_cases hwv : w = v
    · subst hwv
      rw [Function.update_same]
      intro x hx
      rw [Finset.mem_singleton] at hx
      subst hx
      exact hdom w ht
    · rw [Function.update_noteq hwv]
      exact hdom w
  · rw [hasg2s, List.map_append, List.nodup_append]
    refine ⟨hnd, List.nodup_singleton v, ?_⟩
    intro x hx hx2
    rw [List.map_singleton, List.mem_singleton] at hx2
    subst hx2
    obtain ⟨p, hp, he⟩ := List.mem_map.mp hx
    exact lookupA_none_keys hnone p hp he
  · intro p hp
    rw [hasg2s] at hp
    rw [hvars2s]
    rcases List.mem_append.mp hp with h1 | h1
    · exact hkeys p h1
    · rw [List.mem_singleton] at h1
      rw [h1]
      exact hv
  · intro w u hw
    rw [hasg2s] at hw
    rcases lookupA_append_cases hw with hold | ⟨hwv, hut, hl⟩
    · obtain ⟨hdomw, hus0⟩ := hlk w u hold
      have hwne : w ≠ v := fun he => by rw [he, hnone] at hold; cases hold
      have hs1w : Function.update s.domains v {t} w = {u} := by
        rw [Function.update_noteq hwne, hdomw]
      refine ⟨?_, hus0⟩
      have hsub : s2.domains w ⊆ {u} := by
        have h5 := hdsub w
        rw [hs1w] at h5
        exact h5
      have hne : s2.domains w ≠ ∅ := by
        apply ac_3_loop_true_nonempty fuelA _ _ hac w
        rw [show ({ s with assignments := s.assignments ++ [(v, t)],
                           domains := Function.update s.domains v {t} } : CSP V T).domains w
            = Function.update s.domains v {t} w from rfl, hs1w]
        exact Finset.singleton_ne_empty u
      rcases Finset.subset_singleton_iff.mp hsub with he | he
      · exact absurd he hne
      · exact he
    · subst hwv
      subst hut
      refine ⟨?_, hdom w ht⟩
      have hs1w : Function.update s.domains w {u} w = {u} := Function.update_same ..
      have hsub : s2.domains w ⊆ {u} := by
        have h5 := hdsub w
        rw [hs1w] at h5
        exact h5
      have hne : s2.domains w ≠ ∅ := by
        apply ac_3_loop_true_nonempty fuelA _ _ hac w
        rw [show ({ s with assignments := s.assignments ++ [(w, u)],
                           domains := Function.update s.domains w {u} } : CSP V T).domains w
            = Function.update s.domains w {u} w from rfl, hs1w]
        exact Finset.singleton_ne_empty u
      rcases Finset.subset_singleton_iff.mp hsub with he | he
      · exact absurd he hne
      · exact he

theorem tryValues_sound {recur : CSP V T → Option (Option (List (V × T)))}
    {fuelA : Nat} {s : CSP V T} {v : V} (P : List (V × T) → Prop) :
    ∀ ts : List T,
    (∀ t ∈ ts, ∀ s2, add_assignment fuelA s v t = some (true, s2) →
      ∀ sol, recur s2 = some (some sol) → P sol) →
    ∀ sol, tryValues recur (add_assignment fuelA) s v ts = some (some sol) → P sol := by
  intro ts
  induction ts with
  | nil =>
    intro _ sol h
    unfold tryValues at h
    injection h with h1
    cases h1
  | cons t ts ih =>
    intro hrec sol h
    unfold tryValues at h
    split at h
    · cases h
    · rename_i is_consistent child heq
      split at h
      · rename_i hic
        split at h
        · cases h
        · rename_i sol2 heq2
          injection h with h1
          injection h1 with h2
          subst h2
          have heqt : add_assignment fuelA s v t = some (true, child) := by
            rw [← hic]
            exact heq
          exact hrec t (List.mem_cons_self _ _) child heqt sol2 heq2
        · rename_i heq2
          exact ih (fun u hu => hrec u (List.mem_cons_of_mem _ hu)) sol h
      · exact ih (fun u hu => hrec u (List.mem_cons_of_mem _ hu)) sol h

theorem backtrack_succ_shape (fuelA fuel : Nat) (fo : Option (List V))
    (fa : Option (List (V × T))) (s : CSP V T) :
    ∃ (nvo : Option V) (volist : V → List T),
      backtrack fuelA fo fa (fuel + 1) s =
        if s.assignments.length = s.vars.card then some (some s.assignments)
        else
          match nvo with
          | none => none
          | some next_var =>
            tryValues (backtrack fuelA fo fa fuel) (add_assignment fuelA) s next_var
              (volist next_var) :=
  ⟨(match fo with
     | some l =>
       if hlt : s.assignments.length < l.length then
         some (l.get ⟨s.assignments.length, hlt⟩)
       else s.get_next_variable
     | none => s.get_next_variable),
   (fun next_var =>
     match fa with
     | some l =>
       match lookupA l next_var with
       | some attempt =>
         if attempt ∈ s.get_value_order next_var then
           attempt :: (s.get_value_order next_var).erase attempt
         else s.get_value_order next_var
       | none => s.get_value_order next_var
     | none => s.get_value_order next_var),
   rfl⟩

theorem backtrack_sound_aux (s0 : CSP V T)
    (hnd0 : (s0.constraints.map fun c => c.1).Nodup)
    (hcon0 : ∀ c ∈ s0.constraints, c.1.1 ∈ s0.vars ∧ c.1.2 ∈ s0.vars) :
    ∀ (fuel fuelA : Nat) (fo : Option (List V)) (fa : Option (List (V × T))) (s : CSP V T),
    s.vars = s0.vars → s.constraints = s0.constraints →
    (∀ w, s.domains w ⊆ s0.domains w) →
    (s.assignments.map fun p => p.1).Nodup →
    (∀ p ∈ s.assignments, p.1 ∈ s.vars) →
    (∀ w u, lookupA s.assignments w = some u → s.domains w = {u} ∧ u ∈ s0.domains w) →
    (s.assignments.length = s.vars.card →
      ∀ c ∈ s.constraints, ∃ ti tj, lookupA s.assignments c.1.1 = some ti ∧
        lookupA s.assignments c.1.2 = some tj ∧ (ti, tj) ∈ c.2) →
    ∀ sol, backtrack fuelA fo fa fuel s = some (some sol) → Solves s0 sol := by
  intro fuel
  induction fuel with
  | zero =>
    intro fuelA fo fa s _ _ _ _ _ _ _ sol h
    have h0 : (none : Option (Option (List (V × T)))) = some (some sol) := h
    cases h0
  | succ fuel ih =>
    intro fuelA fo fa s hvars hcons hdom hnd hkeys hlk hcs sol h
    obtain ⟨nvo, volist, hgen⟩ := backtrack_succ_shape fuelA fuel fo fa s
    rw [hgen] at h
    by_cases hcomp : s.assignments.length = s.vars.card
    · rw [if_pos hcomp] at h
      injection h with h3
      injection h3 with h4
      subst h4
      constructor
      · intro w hw
        rw [← hvars] at hw
        obtain ⟨u, hu⟩ := lookupA_isSome_of_complete hnd hkeys hcomp w hw
        obtain ⟨hdomw, hus0⟩ := hlk w u hu
        exact ⟨u, hu, hus0⟩
      · intro c hc
        rw [← hcons] at hc
        exact hcs hcomp c hc
    · rw [if_neg hcomp] at h
      cases nvo with
      | none =>
        have h3 : (none : Option (Option (List (V × T)))) = some (some sol) := h
        cases h3
      | some next_var =>
        have h3 : tryValues (backtrack fuelA fo fa fuel) (add_assignment fuelA) s next_var
            (volist next_var) = some (some sol) := h
        refine tryValues_sound (Solves s0) (volist next_var) ?_ sol h3
        intro t _ s2 hadd sol2 hrec2
        obtain ⟨hvars2, hcons2, hdom2, hasg2, hnd2, hkeys2, hlk2⟩ :=
          add_assignment_state_inv hvars hcons hdom hnd hkeys hlk hadd
        have hcs2 : s2.assignments.length = s2.vars.card →
            ∀ c ∈ s2.constraints, ∃ ti tj, lookupA s2.assignments c.1.1 = some ti ∧
              lookupA s2.assignments c.1.2 = some tj ∧ (ti, tj) ∈ c.2 := by
          intro hcomp2 c hc
          obtain ⟨⟨i, j⟩, cs0⟩ := c
          obtain ⟨hvv, hnonev, htv, hac⟩ := add_assignment_some hadd
          have hex : ∃ s1 : CSP V T, s1.vars = s.vars ∧ s1.constraints = s.constraints ∧
              s1.assignments = s.assignments ++ [(next_var, t)] ∧
              s1.domains = Function.update s.domains next_var {t} ∧
              ac_3 fuelA s1 = .ok true s2 :=
            ⟨{ s with assignments := s.assignments ++ [(next_var, t)],
                      domains := Function.update s.domains next_var {t} },
             rfl, rfl, rfl, rfl, hac⟩
          obtain ⟨s1, hs1vars, hs1cons, hs1asg, hs1dom, hac1⟩ := hex
          have hnd1 : (s1.assignments.map fun p => p.1).Nodup := by
            rw [hs1asg, ← hasg2]
            exact hnd2
          have hkeys1 : ∀ p ∈ s1.assignments, p.1 ∈ s1.vars := by
            intro p hp
            rw [hs1asg, ← hasg2] at hp
            rw [hs1vars, hvars, ← hvars2]
            exact hkeys2 p hp
          have hcomp1 : s1.assignments.length = s1.vars.card := by
            rw [hs1asg, ← hasg2, hs1vars, hvars, ← hvars2]
            exact hcomp2
          have hdomval : ∀ w u, lookupA s1.assignments w = some u → s1.domains w = {u} := by
            intro w u hu
            rw [hs1asg] at hu
            rw [hs1dom]
            rcases lookupA_append_cases hu with hold | ⟨hwv, hut, _⟩
            · have hwne : w ≠ next_var := fun he => by rw [he, hnonev] at hold; cases hold
              rw [Function.update_noteq hwne]
              exact (hlk w u hold).1
            · subst hwv
              subst hut
              rw [Function.update_same]
          have hsing : ∀ w ∈ s1.vars, (s1.domains w).card ≤ 1 := by
            intro w hw
            obtain ⟨u, hu⟩ := lookupA_isSome_of_complete hnd1 hkeys1 hcomp1 w hw
            rw [hdomval w u hu]
            exact le_of_eq (Finset.card_singleton u)
          have harcs : ∀ p ∈ initArcs s1, p.1 ∈ s1.vars := by
            intro p hp
            unfold CSP.initArcs at hp
            rcases List.mem_append.mp hp with h1 | h1
            · obtain ⟨c2, hc2, he⟩ := List.mem_map.mp h1
              rw [← he]
              rw [hs1cons, hcons] at hc2
              rw [hs1vars, hvars]
              exact (hcon0 c2 hc2).1
            · obtain ⟨c2, hc2, he⟩ := List.mem_map.mp h1
              rw [← he]
              rw [hs1cons, hcons] at hc2
              rw [hs1vars, hvars]
              exact (hcon0 c2 hc2).2
          obtain ⟨hfix, hsup⟩ := ac_3_loop_singleton fuelA s1 (initArcs s1) hsing harcs hac1
          have hc1 : ((i, j), cs0) ∈ s1.constraints := by
            rw [hs1cons, hcons, ← hcons2]
            exact hc
          have harc : ((i, j) : V × V) ∈ initArcs s1 := by
            unfold CSP.initArcs
            exact List.mem_append.mpr (Or.inl (List.mem_map.mpr ⟨((i, j), cs0), hc1, rfl⟩))
          obtain ⟨cs, hgc, hsupc⟩ := hsup (i, j) harc
          have hnd1c : (s1.constraints.map fun c => c.1).Nodup := by
            rw [hs1cons, hcons]
            exact hnd0
          have hgc2 : s1.get_constraints i j = some cs0 := get_constraints_of_mem_nodup hnd1c hc1
          have hgc3 : s1.get_constraints i j = some cs := hgc
          rw [hgc2] at hgc3
          injection hgc3 with hcseq
          subst hcseq
          have hsupc2 : ∀ x ∈ s1.domains i, ∃ u ∈ s1.domains j, (x, u) ∈ cs0 := hsupc
          have hiv : i ∈ s1.vars := by
            rw [hs1vars, hvars]
            exact (hcon0 ((i, j), cs0) (by rw [← hcons, ← hs1cons]; exact hc1)).1
          have hjv : j ∈ s1.vars := by
            rw [hs1vars, hvars]
            exact (hcon0 ((i, j), cs0) (by rw [← hcons, ← hs1cons]; exact hc1)).2
          obtain ⟨ti, hti⟩ := lookupA_isSome_of_complete hnd1 hkeys1 hcomp1 i hiv
          obtain ⟨tj, htj⟩ := lookupA_isSome_of_complete hnd1 hkeys1 hcomp1 j hjv
          have htii : ti ∈ s1.domains i := by
            rw [hdomval i ti hti]
            exact Finset.mem_singleton_self ti
          obtain ⟨u, huj, hpair⟩ := hsupc2 ti htii
          rw [hdomval j tj htj, Finset.mem_singleton] at huj
          rw [huj] at hpair
          refine ⟨ti, tj, ?_, ?_, hpair⟩
          · rw [hasg2, ← hs1asg]
            exact hti
          · rw [hasg2, ← hs1asg]
            exact htj
        exact ih fuelA fo fa s2 hvars2 hcons2 hdom2 hnd2 hkeys2 hlk2 hcs2 sol2 hrec2

/-- C1: For every valid CSP instance, if `backtrack` returns an assignment
mapping rather than the no-solution signal, that mapping assigns every
declared variable a value lying in that variable's originally declared
domain, and for every declared constraint the pair of values assigned to
its two endpoint variables is in the constraint's allowed-pairs set
(i.e. the mapping `Solves` the instance). -/
theorem backtrack_sound (fuelA fuel : Nat) (fo : Option (List V))
    (fa : Option (List (V × T))) (s : CSP V T) (hval : ValidInst s)
    (sol : List (V × T)) (h : backtrack fuelA fo fa fuel s = some (some sol)) :
    Solves s sol := by
  obtain ⟨hempty, hnd0, hcon0⟩ := hval
  refine backtrack_sound_aux s hnd0
    (fun c hc => ⟨(hcon0 c hc).1, (hcon0 c hc).2.1⟩) fuel fuelA fo fa s rfl rfl
    (fun w => Finset.Subset.refl _) ?_ ?_ ?_ ?_ sol h
  · rw [hempty]
    exact List.nodup_nil
  · intro p hp
    rw [hempty] at hp
    cases hp
  · intro w u hw
    rw [hempty, lookupA_nil] at hw
    cases hw
  · intro hcomp c hc
    have hlen : s.vars.card = 0 := by
      rw [← hcomp, hempty]
      rfl
    have hv0 : s.vars = ∅ := Finset.card_eq_zero.mp hlen
    have hmem := (hcon0 c hc).1
    rw [hv0] at hmem
    exact absurd hmem (Finset.not_mem_empty _)

theorem backtrack_sound_witness : ValidInst triInst ∧ Solves triInst triSol :=
  ⟨⟨rfl, by decide, by decide⟩,
   backtrack_sound 100 4 none none triInst ⟨rfl, by decide, by decide⟩ triSol rfl⟩

theorem addNb_length_le (x : V) (l : List V) : (addNb x l).length ≤ l.length + 1 := by
  unfold CSP.addNb
  split
  · exact Nat.le_succ _
  · exact le_refl _

theorem nbStep_length_le (v : V) (c : (V × V) × Finset (T × T)) (acc : List V) :
    (nbStep v c acc).length ≤ acc.length + 2 := by
  show (if v = c.1.2 then addNb c.1.1 (if v = c.1.1 then addNb c.1.2 acc else acc)
        else (if v = c.1.1 then addNb c.1.2 acc else acc)).length ≤ acc.length + 2
  split
  · refine (addNb_length_le ..).trans ?_
    split
    · exact Nat.add_le_add_right (addNb_length_le ..) 1
    · exact Nat.add_le_add_right (Nat.le_succ _) 1
  · split
    · exact (addNb_length_le ..).trans (Nat.add_le_add_left (by omega) _)
    · exact Nat.le_add_right _ 2

theorem get_neighbours_length_le (s : CSP V T) (v : V) :
    (s.get_neighbours v).length ≤ 2 * s.constraints.length := by
  suffices h : ∀ (l : List ((V × V) × Finset (T × T))) (acc : List V),
      (l.foldl (fun acc c => nbStep v c acc) acc).length ≤ acc.length + 2 * l.length by
    have h2 := h s.constraints []
    simpa using h2
  intro l
  induction l with
  | nil =>
    intro acc
    simp
  | cons c cl ih =>
    intro acc
    rw [List.foldl_cons]
    refine (ih _).trans ?_
    have h3 := nbStep_length_le v c acc
    rw [List.length_cons]
    omega

theorem endpoint_mem_of_isSome {s : CSP V T} {i j : V}
    (hend : ∀ c ∈ s.constraints, c.1.1 ∈ s.vars ∧ c.1.2 ∈ s.vars)
    (h : (s.get_constraints i j).isSome = true) : i ∈ s.vars := by
  rcases get_constraints_isSome.mp h with h1 | h1
  · obtain ⟨cs, hm⟩ := lookupC_isSome_mem h1
    exact (hend ((i, j), cs) hm).1
  · obtain ⟨cs, hm⟩ := lookupC_isSome_mem h1
    exact (hend ((j, i), cs) hm).2

theorem totalDom_lt_of_removed {s s1 : CSP V T} {i j : V}
    (hri : s.remove_inconsistencies i j = some (true, s1)) (hi : i ∈ s.vars) :
    totalDom s1 < totalDom s := by
  obtain ⟨cs, hgc, hdom, _, _, hvar, hiff⟩ := remove_inconsistencies_some hri
  obtain ⟨t, ht, hnk⟩ := hiff.mp rfl
  unfold totalDom
  rw [hvar, hdom]
  apply Finset.sum_lt_sum
  · intro v hv
    by_cases hvi : v = i
    · subst hvi
      rw [Function.update_same]
      exact Finset.card_le_card (keepSet_subset ..)
    · rw [Function.update_noteq hvi]
  · refine ⟨i, hi, ?_⟩
    rw [Function.update_same]
    exact Finset.card_lt_card
      ((Finset.ssubset_iff_of_subset (keepSet_subset ..)).mpr ⟨t, ht, hnk⟩)

theorem ac_3_loop_fuel_sufficient :
    ∀ (fuel : Nat) (s : CSP V T) (q : List (V × V)),
    (∀ c ∈ s.constraints, c.1.1 ∈ s.vars ∧ c.1.2 ∈ s.vars) →
    (2 * s.constraints.length + 1) * totalDom s + q.length < fuel →
    ac_3_loop fuel s q ≠ .outOfFuel := by
  intro fuel
  induction fuel with
  | zero =>
    intro s q hend hlt
    exact absurd hlt (Nat.not_lt_zero _)
  | succ fuel ih =>
    intro s q hend hlt
    cases q with
    | nil =>
      rw [ac_3_loop_nil_eq]
      intro h
      cases h
    | cons p rest =>
      obtain ⟨i, j⟩ := p
      rw [ac_3_loop_cons_eq]
      cases hri : s.remove_inconsistencies i j with
      | none =>
        intro h
        cases h
      | some pr =>
        obtain ⟨removed, s1⟩ := pr
        obtain ⟨cs, hgc, hdomeq, hconeq, hasgeq, hvareq, hiff⟩ :=
          remove_inconsistencies_some hri
        cases removed with
        | false =>
          have hs1 : s1 = s := remove_inconsistencies_false hri
          subst hs1
          show ac_3_loop fuel s1 rest ≠ .outOfFuel
          apply ih s1 rest hend
          rw [List.length_cons] at hlt
          omega
        | true =>
          show (if s1.domains i = ∅ then AC3Result.ok false s1
                else ac_3_loop fuel s1
                  (rest ++ ((s1.get_neighbours i).filter fun k => k ≠ j).map
                    fun k => (k, i))) ≠ AC3Result.outOfFuel
          by_cases hde : s1.domains i = ∅
          · rw [if_pos hde]
            intro h
            cases h
          · rw [if_neg hde]
            have hi : i ∈ s.vars :=
              endpoint_mem_of_isSome hend (by rw [hgc]; rfl)
            have hD : totalDom s1 < totalDom s := totalDom_lt_of_removed hri hi
            have hend1 : ∀ c ∈ s1.constraints, c.1.1 ∈ s1.vars ∧ c.1.2 ∈ s1.vars := by
              rw [hconeq, hvareq]
              exact hend
            apply ih s1 _ hend1
            have hqlen : (rest ++ ((s1.get_neighbours i).filter fun k => k ≠ j).map
                fun k => (k, i)).length ≤ rest.length + 2 * s.constraints.length := by
              rw [List.length_append, List.length_map]
              have h4 := (List.length_filter_le (fun k => decide (k ≠ j))
                (s1.get_neighbours i)).trans (get_neighbours_length_le s1 i)
              rw [hconeq] at h4
              omega
            rw [hconeq]
            set L := s.constraints.length with hL
            set D := totalDom s with hD0
            set D1 := totalDom s1 with hD1
            set ql := (rest ++ ((s1.get_neighbours i).filter fun k => k ≠ j).map
              fun k => (k, i)).length with hql
            rw [List.length_cons] at hlt
            have hmul : (2 * L + 1) * (D1 + 1) ≤ (2 * L + 1) * D :=
              Nat.mul_le_mul_left _ hD
            have hexp : (2 * L + 1) * (D1 + 1) = (2 * L + 1) * D1 + 2 * L + 1 := by ring
            omega

theorem initArcs_length (s : CSP V T) :
    (initArcs s).length = 2 * s.constraints.length := by
  unfold CSP.initArcs
  rw [List.length_append, List.length_map, List.length_map]
  ring

theorem totalDom_le {s s0 : CSP V T} (hv : s.vars = s0.vars)
    (hd : ∀ w, s.domains w ⊆ s0.domains w) : totalDom s ≤ totalDom s0 := by
  unfold totalDom
  rw [hv]
  exact Finset.sum_le_sum fun w _ => Finset.card_le_card (hd w)

theorem mem_insertDesc {key : T → Nat} {t x : T} :
    ∀ {l : List T}, x ∈ insertDesc key t l ↔ x = t ∨ x ∈ l := by
  intro l
  induction l with
  | nil => simp [insertDesc]
  | cons y ys ih =>
    unfold CSP.insertDesc
    split
    · rw [List.mem_cons, ih, List.mem_cons]
      tauto
    · rw [List.mem_cons, List.mem_cons]

theorem mem_sortDesc {key : T → Nat} {x : T} :
    ∀ {l : List T}, x ∈ sortDesc key l ↔ x ∈ l := by
  intro l
  induction l with
  | nil => simp [sortDesc]
  | cons y ys ih =>
    unfold CSP.sortDesc at ih ⊢
    rw [List.foldr_cons, mem_insertDesc, ih, List.mem_cons]

theorem mem_insertAsc {t x : T} :
    ∀ {l : List T}, x ∈ insertAsc t l ↔ x = t ∨ x ∈ l := by
  intro l
  induction l with
  | nil => simp [insertAsc]
  | cons y ys ih =>
    unfold CSP.insertAsc
    split
    · rw [List.mem_cons, List.mem_cons]
    · rw [List.mem_cons, ih, List.mem_cons]
      tauto

theorem mem_setList {d : Finset T} {x : T} : x ∈ setList d ↔ x ∈ d := by
  unfold CSP.setList
  rw [← Finset.mem_val]
  generalize d.val = m
  induction m using Multiset.induction_on with
  | empty => simp
  | cons a m ih =>
    rw [Multiset.foldr_cons, mem_insertAsc, ih, Multiset.mem_cons]

theorem mem_get_value_order {s : CSP V T} {v : V} {t : T}
    (h : t ∈ s.get_value_order v) : t ∈ s.domains v := by
  unfold CSP.get_value_order at h
  rw [mem_sortDesc, mem_setList] at h
  exact h

theorem mem_keys_of_lookupA_some {l : List (V × T)} {v : V} {u : T}
    (h : lookupA l v = some u) : v ∈ l.map fun p => p.1 := by
  induction l with
  | nil => rw [lookupA_nil] at h; cases h
  | cons p pl ih =>
    unfold lookupA at h
    rw [List.map_cons, List.mem_cons]
    by_cases hp : p.1 = v
    · exact Or.inl hp.symm
    · rw [if_neg hp] at h
      exact Or.inr (ih h)

theorem candidates_nonempty {s : CSP V T}
    (hnd : (s.assignments.map fun p => p.1).Nodup)
    (hkeys : ∀ p ∈ s.assignments, p.1 ∈ s.vars)
    (hincomp : s.assignments.length ≠ s.vars.card) :
    (s.vars.filter fun v => lookupA s.assignments v = none).Nonempty := by
  have hsub : (s.assignments.map fun p => p.1).toFinset ⊆ s.vars := by
    intro x hx
    rw [List.mem_toFinset] at hx
    obtain ⟨p, hp, he⟩ := List.mem_map.mp hx
    exact he ▸ hkeys p hp
  have hcard : (s.assignments.map fun p => p.1).toFinset.card = s.assignments.length := by
    rw [List.toFinset_card_of_nodup hnd, List.length_map]
  by_contra hne
  rw [Finset.not_nonempty_iff_eq_empty, Finset.filter_eq_empty_iff] at hne
  have hsup : s.vars ⊆ (s.assignments.map fun p => p.1).toFinset := by
    intro v hv
    have h2 := hne hv
    cases hl : lookupA s.assignments v with
    | none => exact absurd hl h2
    | some u =>
      rw [List.mem_toFinset]
      exact mem_keys_of_lookupA_some hl
  have heq := Finset.Subset.antisymm hsub hsup
  rw [← heq, hcard] at hincomp
  exact hincomp rfl

theorem popFinset_mem {c : Finset V} {v : V} (h : popFinset c = some v) : v ∈ c := by
  unfold CSP.popFinset at h
  split at h
  · injection h with he
    rw [← he]
    exact Finset.min'_mem _ _
  · cases h

theorem get_next_variable_some {s : CSP V T}
    (h : (s.vars.filter fun v => lookupA s.assignments v = none).Nonempty) :
    ∃ r, s.get_next_variable = some r ∧ r ∈ s.vars ∧ lookupA s.assignments r = none := by
  have hgnv : s.get_next_variable =
      (if ((s.vars.filter fun v => lookupA s.assignments v = none).filter
            (fun v => (s.domains v).card =
              (s.vars.filter fun v => lookupA s.assignments v = none).inf' h
                (fun v => (s.domains v).card))).card = 1 then
        popFinset ((s.vars.filter fun v => lookupA s.assignments v = none).filter
            (fun v => (s.domains v).card =
              (s.vars.filter fun v => lookupA s.assignments v = none).inf' h
                (fun v => (s.domains v).card)))
      else if h2 : ((s.vars.filter fun v => lookupA s.assignments v = none).filter
            (fun v => (s.domains v).card =
              (s.vars.filter fun v => lookupA s.assignments v = none).inf' h
                (fun v => (s.domains v).card))).Nonempty then
        popFinset (((s.vars.filter fun v => lookupA s.assignments v = none).filter
            (fun v => (s.domains v).card =
              (s.vars.filter fun v => lookupA s.assignments v = none).inf' h
                (fun v => (s.domains v).card))).filter
          (fun v => s.get_degrees v =
            ((s.vars.filter fun v => lookupA s.assignments v = none).filter
              (fun v => (s.domains v).card =
                (s.vars.filter fun v => lookupA s.assignments v = none).inf' h
                  (fun v => (s.domains v).card))).sup' h2 s.get_degrees))
      else none) := by
    unfold CSP.get_next_variable
    rw [dif_pos h]
  obtain ⟨w, hw, hweq⟩ :=
    Finset.exists_mem_eq_inf' h (fun v => (s.domains v).card)
  have hc2ne : ((s.vars.filter fun v => lookupA s.assignments v = none).filter
      (fun v => (s.domains v).card =
        (s.vars.filter fun v => lookupA s.assignments v = none).inf' h
          (fun v => (s.domains v).card))).Nonempty :=
    ⟨w, Finset.mem_filter.mpr ⟨hw, hweq.symm⟩⟩
  by_cases hone : ((s.vars.filter fun v => lookupA s.assignments v = none).filter
      (fun v => (s.domains v).card =
        (s.vars.filter fun v => lookupA s.assignments v = none).inf' h
          (fun v => (s.domains v).card))).card = 1
  · rw [if_pos hone, popFinset_eq hc2ne] at hgnv
    have hrmem := Finset.min'_mem _ hc2ne
    obtain ⟨hrc, _⟩ := Finset.mem_filter.mp hrmem
    obtain ⟨hrv, hrn⟩ := Finset.mem_filter.mp hrc
    exact ⟨_, hgnv, hrv, hrn⟩
  · rw [if_neg hone, dif_pos hc2ne] at hgnv
    obtain ⟨w3, hw3, hw3eq⟩ := Finset.exists_mem_eq_sup' hc2ne s.get_degrees
    have hc3ne : (((s.vars.filter fun v => lookupA s.assignments v = none).filter
        (fun v => (s.domains v).card =
          (s.vars.filter fun v => lookupA s.assignments v = none).inf' h
            (fun v => (s.domains v).card))).filter
      (fun v => s.get_degrees v =
        ((s.vars.filter fun v => lookupA s.assignments v = none).filter
          (fun v => (s.domains v).card =
            (s.vars.filter fun v => lookupA s.assignments v = none).inf' h
              (fun v => (s.domains v).card))).sup' hc2ne s.get_degrees)).Nonempty :=
      ⟨w3, Finset.mem_filter.mpr ⟨hw3, hw3eq.symm⟩⟩
    rw [popFinset_eq hc3ne] at hgnv
    have hrmem := Finset.min'_mem _ hc3ne
    obtain ⟨hrc2, _⟩ := Finset.mem_filter.mp hrmem
    obtain ⟨hrc, _⟩ := Finset.mem_filter.mp hrc2
    obtain ⟨hrv, hrn⟩ := Finset.mem_filter.mp hrc
    exact ⟨_, hgnv, hrv, hrn⟩

theorem add_assignment_isSome {fuelA : Nat} {s : CSP V T} {v : V} {t : T}
    (hv : v ∈ s.vars) (hn : lookupA s.assignments v = none) (ht : t ∈ s.domains v)
    (hend : ∀ c ∈ s.constraints, c.1.1 ∈ s.vars ∧ c.1.2 ∈ s.vars)
    (hfuelA : (2 * s.constraints.length + 1) * totalDom s +
      2 * s.constraints.length < fuelA) :
    ∃ b s2, add_assignment fuelA s v t = some (b, s2) := by
  have hex : ∃ s1 : CSP V T, s1.vars = s.vars ∧ s1.constraints = s.constraints ∧
      s1.domains = Function.update s.domains v {t} ∧
      add_assignment fuelA s v t =
        (match ac_3 fuelA s1 with
         | .ok b s2 => some (b, s2)
         | _ => none) := by
    refine ⟨{ s with assignments := s.assignments ++ [(v, t)],
                     domains := Function.update s.domains v {t} }, rfl, rfl, rfl, ?_⟩
    unfold CSP.add_assignment
    rw [if_pos ⟨hv, hn, ht⟩]
  obtain ⟨s1, hs1v, hs1c, hs1d, heq⟩ := hex
  have htot : totalDom s1 ≤ totalDom s := by
    refine totalDom_le hs1v ?_
    intro w
    rw [hs1d]
    by_cases hwv : w = v
    · subst hwv
      rw [Function.update_same]
      intro x hx
      rw [Finset.mem_singleton] at hx
      rw [hx]
      exact ht
    · rw [Function.update_noteq hwv]
  have hend1 : ∀ c ∈ s1.constraints, c.1.1 ∈ s1.vars ∧ c.1.2 ∈ s1.vars := by
    rw [hs1c, hs1v]
    exact hend
  have hnofuel : ac_3 fuelA s1 ≠ .outOfFuel := by
    apply ac_3_loop_fuel_sufficient fuelA s1 (initArcs s1) hend1
    rw [initArcs_length, hs1c]
    have hmul : (2 * s.constraints.length + 1) * totalDom s1 ≤
        (2 * s.constraints.length + 1) * totalDom s :=
      Nat.mul_le_mul_left _ htot
    omega
  have hnoassert : ac_3 fuelA s1 ≠ .assertFail :=
    ac_3_loop_no_assert fuelA s1 (initArcs s1) fun p hp => initArcs_isSome hp
  rw [heq]
  cases hres : ac_3 fuelA s1 with
  | ok b s2 => exact ⟨b, s2, rfl⟩
  | assertFail => exact absurd hres hnoassert
  | outOfFuel => exact absurd hres hnofuel

theorem tryValues_some {recur : CSP V T → Option (Option (List (V × T)))}
    {fuelA : Nat} {s : CSP V T} {v : V} :
    ∀ ts : List T,
    (∀ t ∈ ts, ∃ b s2, add_assignment fuelA s v t = some (b, s2) ∧
      (b = true → recur s2 ≠ none)) →
    tryValues recur (add_assignment fuelA) s v ts ≠ none := by
  intro ts
  induction ts with
  | nil =>
    intro _
    unfold tryValues
    intro h
    cases h
  | cons t ts ih =>
    intro hall
    obtain ⟨b, s2, hadd, hrec⟩ := hall t (List.mem_cons_self _ _)
    unfold tryValues
    rw [hadd]
    cases b with
    | false =>
      show tryValues recur (add_assignment fuelA) s v ts ≠ none
      exact ih fun u hu => hall u (List.mem_cons_of_mem _ hu)
    | true =>
      show (match recur s2 with
            | none => none
            | some (some sol) => some (some sol)
            | some none => tryValues recur (add_assignment fuelA) s v ts) ≠ none
      cases hr : recur s2 with
      | none => exact absurd hr (hrec rfl)
      | some o =>
        cases o with
        | none =>
          show tryValues recur (add_assignment fuelA) s v ts ≠ none
          exact ih fun u hu => hall u (List.mem_cons_of_mem _ hu)
        | some sol =>
          intro h
          cases h

theorem backtrack_succ_none_shape (fuelA fuel : Nat) (s : CSP V T) :
    backtrack fuelA none none (fuel + 1) s =
      if s.assignments.length = s.vars.card then some (some s.assignments)
      else
        match s.get_next_variable with
        | none => none
        | some next_var =>
          tryValues (backtrack fuelA none none fuel) (add_assignment fuelA) s next_var
            (s.get_value_order next_var) := rfl

theorem assignments_length_le {s : CSP V T}
    (hnd : (s.assignments.map fun p => p.1).Nodup)
    (hkeys : ∀ p ∈ s.assignments, p.1 ∈ s.vars) :
    s.assignments.length ≤ s.vars.card := by
  have hsub : (s.assignments.map fun p => p.1).toFinset ⊆ s.vars := by
    intro x hx
    rw [List.mem_toFinset] at hx
    obtain ⟨p, hp, he⟩ := List.mem_map.mp hx
    exact he ▸ hkeys p hp
  have hcard : (s.assignments.map fun p => p.1).toFinset.card = s.assignments.length := by
    rw [List.toFinset_card_of_nodup hnd, List.length_map]
  rw [← hcard]
  exact Finset.card_le_card hsub

theorem backtrack_total_aux (s0 : CSP V T)
    (hcon0 : ∀ c ∈ s0.constraints, c.1.1 ∈ s0.vars ∧ c.1.2 ∈ s0.vars) :
    ∀ (fuel fuelA : Nat) (s : CSP V T),
    s.vars = s0.vars → s.constraints = s0.constraints →
    (∀ w, s.domains w ⊆ s0.domains w) →
    (s.assignments.map fun p => p.1).Nodup →
    (∀ p ∈ s.assignments, p.1 ∈ s.vars) →
    (∀ w u, lookupA s.assignments w = some u → s.domains w = {u} ∧ u ∈ s0.domains w) →
    (2 * s0.constraints.length + 1) * totalDom s0 + 2 * s0.constraints.length < fuelA →
    s.vars.card - s.assignments.length < fuel →
    backtrack fuelA none none fuel s ≠ none := by
  intro fuel
  induction fuel with
  | zero =>
    intro fuelA s _ _ _ _ _ _ _ hlt
    exact absurd hlt (Nat.not_lt_zero _)
  | succ fuel ih =>
    intro fuelA s hvars hcons hdom hnd hkeys hlk hfa hfuel
    rw [backtrack_succ_none_shape]
    by_cases hcomp : s.assignments.length = s.vars.card
    · rw [if_pos hcomp]
      intro h
      cases h
    · rw [if_neg hcomp]
      have hcand := candidates_nonempty hnd hkeys hcomp
      obtain ⟨r, hr, hrv, hrn⟩ := get_next_variable_some hcand
      rw [hr]
      show tryValues (backtrack fuelA none none fuel) (add_assignment fuelA) s r
          (s.get_value_order r) ≠ none
      apply tryValues_some
      intro t htmem
      have htd : t ∈ s.domains r := mem_get_value_order htmem
      have hfa2 : (2 * s.constraints.length + 1) * totalDom s +
          2 * s.constraints.length < fuelA := by
        have h2 := totalDom_le hvars hdom
        rw [hcons]
        have hmul := Nat.mul_le_mul_left (2 * s0.constraints.length + 1) h2
        omega
      have hend : ∀ c ∈ s.constraints, c.1.1 ∈ s.vars ∧ c.1.2 ∈ s.vars := by
        rw [hcons, hvars]
        exact hcon0
      obtain ⟨b, s2, hadd⟩ := add_assignment_isSome hrv hrn htd hend hfa2
      refine ⟨b, s2, hadd, ?_⟩
      intro hb
      subst hb
      obtain ⟨hvars2, hcons2, hdom2, hasg2, hnd2, hkeys2, hlk2⟩ :=
        add_assignment_state_inv hvars hcons hdom hnd hkeys hlk hadd
      apply ih fuelA s2 hvars2 hcons2 hdom2 hnd2 hkeys2 hlk2 hfa
      have hlen_le := assignments_length_le hnd hkeys
      have hcardeq : s2.vars.card = s.vars.card := by
        rw [hvars2, ← hvars]
      have hleneq : s2.assignments.length = s.assignments.length + 1 := by
        rw [hasg2, List.length_append]
        rfl
      omega

/-- C8: Both procedures terminate on every finite instance: the `ac_3`
worklist loop always empties within an explicit fuel bound — arcs are
re-enqueued only when a domain strictly shrinks, giving the measure
(2·|constraints|+1)·(total domain size) + queue length — so `ac_3` never
runs out of fuel beyond that bound; `backtrack` on any valid instance
returns an answer (never crashes or exhausts fuel) once its fuel exceeds
the variable count and its `ac_3` fuel exceeds the same bound; and on the
concrete unsatisfiable odd-cycle instance (4 nodes, 2 colours, 5
inequality edges) `backtrack` terminates with the no-solution signal. -/
theorem ac_3_backtrack_terminate :
    (∀ (s : CSP V T) (fuel : Nat),
      (∀ c ∈ s.constraints, c.1.1 ∈ s.vars ∧ c.1.2 ∈ s.vars) →
      (2 * s.constraints.length + 1) * totalDom s + 2 * s.constraints.length < fuel →
      ac_3 fuel s ≠ .outOfFuel) ∧
    (∀ (s : CSP V T) (fuelA fuel : Nat), ValidInst s →
      (2 * s.constraints.length + 1) * totalDom s + 2 * s.constraints.length < fuelA →
      s.vars.card < fuel →
      backtrack fuelA none none fuel s ≠ none) ∧
    backtrack 100 none none 6 oddCycleInst = some none := by
  refine ⟨?_, ?_, ?_⟩
  · intro s fuel hend hlt
    apply ac_3_loop_fuel_sufficient fuel s (initArcs s) hend
    rw [initArcs_length]
    exact hlt
  · intro s fuelA fuel hval hfa hfuel
    obtain ⟨hempty, hnd0, hcon0⟩ := hval
    refine backtrack_total_aux s
      (fun c hc => ⟨(hcon0 c hc).1, (hcon0 c hc).2.1⟩) fuel fuelA s rfl rfl
      (fun w => Finset.Subset.refl _) ?_ ?_ ?_ hfa ?_
    · rw [hempty]
      exact List.nodup_nil
    · intro p hp
      rw [hempty] at hp
      cases hp
    · intro w u hw
      rw [hempty, lookupA_nil] at hw
      cases hw
    · rw [hempty]
      simp only [List.length_nil, Nat.sub_zero]
      exact hfuel
  · decide

theorem ac_3_backtrack_terminate_witness :
    ((∀ c ∈ oddCycleInst.constraints,
        c.1.1 ∈ oddCycleInst.vars ∧ c.1.2 ∈ oddCycleInst.vars) ∧
      (2 * oddCycleInst.constraints.length + 1) * totalDom oddCycleInst +
        2 * oddCycleInst.constraints.length < 100 ∧
      ac_3 100 oddCycleInst ≠ .outOfFuel) ∧
    (ValidInst oddCycleInst ∧ oddCycleInst.vars.card < 6 ∧
      backtrack 100 none none 6 oddCycleInst ≠ none) :=
  ⟨⟨by decide, by decide,
    ac_3_backtrack_terminate.1 oddCycleInst 100 (by decide) (by decide)⟩,
   ⟨⟨rfl, by decide, by decide⟩, by decide,
    ac_3_backtrack_terminate.2.1 oddCycleInst 100 6 ⟨rfl, by decide, by decide⟩
      (by decide) (by decide)⟩⟩

theorem FrameLe_refl (st : RefModel.Store V T) : RefModel.FrameLe st st :=
  ⟨le_refl _, fun _ _ => rfl, fun _ _ => rfl, fun _ => rfl, fun _ => rfl⟩

theorem FrameLe_trans {a b c : RefModel.Store V T}
    (h1 : RefModel.FrameLe a b) (h2 : RefModel.FrameLe b c) : RefModel.FrameLe a c := by
  obtain ⟨hn1, hd1, ha1, hc1, hv1⟩ := h1
  obtain ⟨hn2, hd2, ha2, hc2, hv2⟩ := h2
  refine ⟨hn1.trans hn2, ?_, ?_, ?_, ?_⟩
  · intro i hi
    rw [hd2 i (lt_of_lt_of_le hi hn1), hd1 i hi]
  · intro i hi
    rw [ha2 i (lt_of_lt_of_le hi hn1), ha1 i hi]
  · intro i
    rw [hc2 i, hc1 i]
  · intro i
    rw [hv2 i, hv1 i]

theorem FrameLe_copy (st : RefModel.Store V T) (r : RefModel.CSPRef) :
    RefModel.FrameLe st (RefModel.copy_of st r).1 := by
  refine ⟨Nat.le_add_right _ 2, ?_, ?_, fun _ => rfl, fun _ => rfl⟩
  · intro i hi
    show Function.update st.doms st.next (st.doms r.domRef) i = st.doms i
    exact Function.update_noteq (Nat.ne_of_lt hi) _ _
  · intro i hi
    show Function.update st.asgs (st.next + 1) (st.asgs r.asgRef) i = st.asgs i
    exact Function.update_noteq (by omega) _ _

theorem FrameLe_writeDoms {st st1 : RefModel.Store V T} (h : RefModel.FrameLe st st1)
    {i : Nat} (hi : st.next ≤ i) (D : V → Finset T) :
    RefModel.FrameLe st (RefModel.writeDoms st1 i D) := by
  obtain ⟨hn, hd, ha, hc, hv⟩ := h
  refine ⟨hn, ?_, ha, hc, hv⟩
  intro j hj
  show Function.update st1.doms i D j = st.doms j
  rw [Function.update_noteq (by omega), hd j hj]

theorem FrameLe_writeAsgs {st st1 : RefModel.Store V T} (h : RefModel.FrameLe st st1)
    {i : Nat} (hi : st.next ≤ i) (A : List (V × T)) :
    RefModel.FrameLe st (RefModel.writeAsgs st1 i A) := by
  obtain ⟨hn, hd, ha, hc, hv⟩ := h
  refine ⟨hn, hd, ?_, hc, hv⟩
  intro j hj
  show Function.update st1.asgs i A j = st.asgs j
  rw [Function.update_noteq (by omega), ha j hj]

theorem ref_add_assignment_frame {fuelA : Nat} {st : RefModel.Store V T}
    {r : RefModel.CSPRef} {v : V} {t : T} {b : Bool} {st2 : RefModel.Store V T}
    (h : RefModel.add_assignment fuelA (RefModel.copy_of st r).1
      (RefModel.copy_of st r).2 v t = some (b, st2)) : RefModel.FrameLe st st2 := by
  unfold RefModel.add_assignment at h
  split at h
  · cases h
  · rename_i b1 s1 heq
    injection h with h1
    rw [Prod.mk.injEq] at h1
    obtain ⟨_, h2⟩ := h1
    rw [← h2]
    exact FrameLe_writeAsgs
      (FrameLe_writeDoms (FrameLe_copy st r) (le_refl st.next) s1.domains)
      (Nat.le_succ st.next) s1.assignments

theorem ref_tryValues_frame {fuelA : Nat}
    {recur : RefModel.Store V T → RefModel.CSPRef →
      Option (Option (List (V × T)) × RefModel.Store V T)}
    (hrec : ∀ st r res st2, recur st r = some (res, st2) → RefModel.FrameLe st st2) :
    ∀ (ts : List T) (st : RefModel.Store V T) (r : RefModel.CSPRef) (v : V)
      (res : Option (List (V × T))) (st' : RefModel.Store V T),
    RefModel.tryValues fuelA recur st r v ts = some (res, st') →
    RefModel.FrameLe st st' := by
  intro ts
  induction ts with
  | nil =>
    intro st r v res st' h
    unfold RefModel.tryValues at h
    injection h with h1
    have h2 : st = st' := congrArg Prod.snd h1
    rw [← h2]
    exact FrameLe_refl st
  | cons t ts ih =>
    intro st r v res st' h
    have h2 : (match RefModel.add_assignment fuelA (RefModel.copy_of st r).1
          (RefModel.copy_of st r).2 v t with
        | none => none
        | some (is_consistent, st2) =>
          if is_consistent then
            match recur st2 (RefModel.copy_of st r).2 with
            | none => none
            | some (some sol, st3) => some (some sol, st3)
            | some (none, st3) => RefModel.tryValues fuelA recur st3 r v ts
          else RefModel.tryValues fuelA recur st2 r v ts) = some (res, st') := h
    clear h
    cases haa : RefModel.add_assignment fuelA (RefModel.copy_of st r).1
        (RefModel.copy_of st r).2 v t with
    | none =>
      rw [haa] at h2
      have h3 : (none : Option (Option (List (V × T)) × RefModel.Store V T))
          = some (res, st') := h2
      cases h3
    | some pr =>
      obtain ⟨b, st2⟩ := pr
      rw [haa] at h2
      have hf2 : RefModel.FrameLe st st2 := ref_add_assignment_frame haa
      cases b with
      | false =>
        have h3 : RefModel.tryValues fuelA recur st2 r v ts = some (res, st') := h2
        exact FrameLe_trans hf2 (ih st2 r v res st' h3)
      | true =>
        have h3 : (match recur st2 (RefModel.copy_of st r).2 with
            | none => none
            | some (some sol, st3) => some (some sol, st3)
            | some (none, st3) => RefModel.tryValues fuelA recur st3 r v ts)
            = some (res, st') := h2
        clear h2
        cases hr : recur st2 (RefModel.copy_of st r).2 with
        | none =>
          rw [hr] at h3
          have h4 : (none : Option (Option (List (V × T)) × RefModel.Store V T))
              = some (res, st') := h3
          cases h4
        | some pr2 =>
          obtain ⟨o, st3⟩ := pr2
          rw [hr] at h3
          cases o with
          | some sol =>
            have h4 : (some (some sol, st3) : Option (Option (List (V × T))
                × RefModel.Store V T)) = some (res, st') := h3
            injection h4 with h5
            have h6 : st3 = st' := congrArg Prod.snd h5
            rw [← h6]
            exact FrameLe_trans hf2 (hrec st2 (RefModel.copy_of st r).2 (some sol) st3 hr)
          | none =>
            have h4 : RefModel.tryValues fuelA recur st3 r v ts = some (res, st') := h3
            exact FrameLe_trans
              (FrameLe_trans hf2 (hrec st2 (RefModel.copy_of st r).2 none st3 hr))
              (ih st3 r v res st' h4)

theorem refBacktrack_succ_shape (fuelA fuel : Nat) (fo : Option (List V))
    (fa : Option (List (V × T))) (st : RefModel.Store V T) (r : RefModel.CSPRef) :
    ∃ (nvo : Option V) (volist : V → List T),
      RefModel.backtrack fuelA fo fa (fuel + 1) st r =
        if (RefModel.readCSP st r).assignments.length = (RefModel.readCSP st r).vars.card
        then some (some (RefModel.readCSP st r).assignments, st)
        else
          match nvo with
          | none => none
          | some next_var =>
            RefModel.tryValues fuelA (RefModel.backtrack fuelA fo fa fuel) st r next_var
              (volist next_var) :=
  ⟨(match fo with
     | some l =>
       if hlt : (RefModel.readCSP st r).assignments.length < l.length then
         some (l.get ⟨(RefModel.readCSP st r).assignments.length, hlt⟩)
       else (RefModel.readCSP st r).get_next_variable
     | none => (RefModel.readCSP st r).get_next_variable),
   (fun next_var =>
     match fa with
     | some l =>
       match lookupA l next_var with
       | some attempt =>
         if attempt ∈ (RefModel.readCSP st r).get_value_order next_var then
           attempt :: ((RefModel.readCSP st r).get_value_order next_var).erase attempt
         else (RefModel.readCSP st r).get_value_order next_var
       | none => (RefModel.readCSP st r).get_value_order next_var
     | none => (RefModel.readCSP st r).get_value_order next_var),
   rfl⟩

theorem ref_backtrack_frame (fuelA : Nat) (fo : Option (List V))
    (fa : Option (List (V × T))) :
    ∀ (fuel : Nat) (st : RefModel.Store V T) (r : RefModel.CSPRef)
      (res : Option (List (V × T))) (st' : RefModel.Store V T),
    RefModel.backtrack fuelA fo fa fuel st r = some (res, st') →
    RefModel.FrameLe st st' := by
  intro fuel
  induction fuel with
  | zero =>
    intro st r res st' h
    have h0 : (none : Option (Option (List (V × T)) × RefModel.Store V T))
        = some (res, st') := h
    cases h0
  | succ fuel ih =>
    intro st r res st' h
    obtain ⟨nvo, volist, hgen⟩ := refBacktrack_succ_shape fuelA fuel fo fa st r
    rw [hgen] at h
    by_cases hcomp : (RefModel.readCSP st r).assignments.length
        = (RefModel.readCSP st r).vars.card
    · rw [if_pos hcomp] at h
      injection h with h1
      have h2 : st = st' := congrArg Prod.snd h1
      rw [← h2]
      exact FrameLe_refl st
    · rw [if_neg hcomp] at h
      cases nvo with
      | none =>
        have h3 : (none : Option (Option (List (V × T)) × RefModel.Store V T))
            = some (res, st') := h
        cases h3
      | some next_var =>
        have h3 : RefModel.tryValues fuelA (RefModel.backtrack fuelA fo fa fuel) st r
            next_var (volist next_var) = some (res, st') := h
        exact ref_tryValues_frame ih (volist next_var) st r next_var res st' h3

/-- C4: `copy_of` shares the `variables` set and `constraints` map by
reference but allocates fresh cells for `domains` and `assignments` holding
equal contents, so the clone denotes the same CSP value; mutating the
clone's `domains` or `assignments` cells (as `add_assignment` on the clone
does) never changes the original object's value; and a heap-level
`backtrack` run leaves the CSP object it is passed denoting exactly the
value it had before. -/
theorem copy_of_isolated (st : RefModel.Store V T) (r : RefModel.CSPRef) :
    ((RefModel.copy_of st r).2.varRef = r.varRef ∧
      (RefModel.copy_of st r).2.conRef = r.conRef) ∧
    (RefModel.WFRef st r →
      (RefModel.copy_of st r).2.domRef ≠ r.domRef ∧
      (RefModel.copy_of st r).2.asgRef ≠ r.asgRef) ∧
    RefModel.readCSP (RefModel.copy_of st r).1 (RefModel.copy_of st r).2 =
      RefModel.readCSP st r ∧
    (RefModel.WFRef st r → ∀ (D : V → Finset T) (A : List (V × T)),
      RefModel.readCSP (RefModel.writeAsgs
        (RefModel.writeDoms (RefModel.copy_of st r).1 (RefModel.copy_of st r).2.domRef D)
        (RefModel.copy_of st r).2.asgRef A) r = RefModel.readCSP st r) ∧
    (RefModel.WFRef st r →
      ∀ (fuelA fuel : Nat) (fo : Option (List V)) (fa : Option (List (V × T)))
        (res : Option (List (V × T))) (st' : RefModel.Store V T),
      RefModel.backtrack fuelA fo fa fuel st r = some (res, st') →
      RefModel.readCSP st' r = RefModel.readCSP st r) := by
  refine ⟨⟨rfl, rfl⟩, ?_, ?_, ?_, ?_⟩
  · intro hwf
    constructor
    · intro he
      have h2 := hwf.2.1
      rw [← he] at h2
      exact absurd h2 (lt_irrefl _)
    · intro he
      have h2 := hwf.2.2.2
      rw [← he] at h2
      have h3 : st.next + 1 < st.next := h2
      exact absurd h3 (by omega)
  · have hdeq : Function.update st.doms st.next (st.doms r.domRef) st.next
        = st.doms r.domRef := Function.update_same ..
    have haeq : Function.update st.asgs (st.next + 1) (st.asgs r.asgRef) (st.next + 1)
        = st.asgs r.asgRef := Function.update_same ..
    exact CSP.eq_of_fields rfl hdeq rfl haeq
  · intro hwf D A
    obtain ⟨h1, h2, h3, h4⟩ := hwf
    have hdeq : Function.update
        (Function.update st.doms st.next (st.doms r.domRef)) st.next D r.domRef
        = st.doms r.domRef := by
      rw [Function.update_noteq (by omega : r.domRef ≠ st.next),
        Function.update_noteq (by omega : r.domRef ≠ st.next)]
    have haeq : Function.update
        (Function.update st.asgs (st.next + 1) (st.asgs r.asgRef)) (st.next + 1) A r.asgRef
        = st.asgs r.asgRef := by
      rw [Function.update_noteq (by omega : r.asgRef ≠ st.next + 1),
        Function.update_noteq (by omega : r.asgRef ≠ st.next + 1)]
    exact CSP.eq_of_fields rfl hdeq rfl haeq
  · intro hwf fuelA fuel fo fa res st' h
    obtain ⟨hfn, hfd, hfa2, hfc, hfv⟩ := ref_backtrack_frame fuelA fo fa fuel st r res st' h
    obtain ⟨h1, h2, h3, h4⟩ := hwf
    exact CSP.eq_of_fields (hfv r.varRef) (hfd r.domRef h2) (hfc r.conRef)
      (hfa2 r.asgRef h4)

theorem copy_of_isolated_witness :
    RefModel.WFRef stW rW ∧
    RefModel.readCSP (RefModel.writeAsgs
      (RefModel.writeDoms (RefModel.copy_of stW rW).1 (RefModel.copy_of stW rW).2.domRef
        fun _ => ∅)
      (RefModel.copy_of stW rW).2.asgRef [(0, 0)]) rW = RefModel.readCSP stW rW ∧
    rbRun = some (rbRes, rbStore) ∧
    RefModel.readCSP rbStore rW = RefModel.readCSP stW rW :=
  ⟨⟨by decide, by decide, by decide, by decide⟩,
   (copy_of_isolated stW rW).2.2.2.1 ⟨by decide, by decide, by decide, by decide⟩
     (fun _ => ∅) [(0, 0)],
   rfl,
   (copy_of_isolated stW rW).2.2.2.2 ⟨by decide, by decide, by decide, by decide⟩
     5 2 none none rbRes rbStore rfl⟩
